import Mathlib

/-!
Verification of the namespace-sharded PostgreSQL vector store
(`app/services/vector_store/namespace_pg_vector.py` and
`app/services/database.py`).

Tables are modelled as lists of rows in physical (insertion) order.  The
SQL statement `INSERT ... ON CONFLICT (chunk_id) DO UPDATE SET <all
columns>` executed by `executemany` is modelled by a left fold of a
single-row upsert over the batch.  The database state is the global
`embeddings` table together with an association list from sanitized
namespace name to the namespace-specific table.
-/

/-! ## Definitions: the embedded data model and operations -/

/-- One row of an embeddings table: the columns written by the store
(`chunk_id, file_id, source, chunk_index, text, embedding, namespace`).
The vector column is abstracted as a list of rationals; the similarity
operator is kept abstract.  The `namespace` column is called `namespace_`
because `namespace` is a Lean keyword. -/
structure Row where
  chunk_id : String
  file_id : String
  source : String
  chunk_index : Int
  text : String
  embedding : List Rat
  namespace_ : String
deriving DecidableEq

/-- The chunk_id column of a table. -/
def chunkIds (t : List Row) : List String := t.map (fun r => r.chunk_id)

/-- Replace a row by the incoming row when the chunk_id matches
(the `DO UPDATE SET` arm of the upsert). -/
def replaceRow (v r : Row) : Row := if r.chunk_id = v.chunk_id then v else r

/-- One `INSERT ... ON CONFLICT (chunk_id) DO UPDATE` of a single row:
if the chunk_id is already present the conflicting row is overwritten in
place with all incoming column values; otherwise the row is appended. -/
def upsertRow (t : List Row) (v : Row) : List Row :=
  if v.chunk_id ∈ chunkIds t then t.map (replaceRow v) else t ++ [v]

/-- Model of `executemany` of the upsert statement over a batch: sequential
single-row upserts. -/
def upsertBatch (t : List Row) (vs : List Row) : List Row := vs.foldl upsertRow t

/-- Lookup of the (first) row with a given chunk_id. -/
def findRow (t : List Row) (c : String) : Option Row :=
  t.find? (fun r => r.chunk_id == c)

/-- The last occurrence of a chunk_id inside a batch: the row value that
wins after the whole batch has been applied. -/
def lastOcc : List Row → String → Option Row
  | [], _ => none
  | v :: rest, c =>
    match lastOcc rest c with
    | some w => some w
    | none => if v.chunk_id = c then some v else none

/-- The effect of a batch on a pre-existing row: overwritten by the last
occurrence of its chunk_id in the batch, if any. -/
def patchRow (vs : List Row) (r : Row) : Row := (lastOcc vs r.chunk_id).getD r

/-- The rows a batch appends to a table whose chunk_ids are `known`:
one row per first occurrence of a fresh chunk_id, already carrying the
value of the last occurrence of that chunk_id. -/
def newRows (known : List String) : List Row → List Row
  | [] => []
  | v :: rest =>
    if v.chunk_id ∈ known then newRows known rest
    else patchRow rest v :: newRows (known ++ [v.chunk_id]) rest

/-- The multiplicity of a chunk_id in a table. -/
def countById (t : List Row) (c : String) : Nat :=
  (t.filter (fun r => r.chunk_id == c)).length

/-- Iterated replays of the same batch over a table. -/
def replayBatch (vs : List Row) : Nat → List Row → List Row
  | 0, t => t
  | n + 1, t => replayBatch vs n (upsertBatch t vs)

/-- The `_sanitize_namespace` character replacement: hyphen, space, period
and at-sign become underscores. -/
def sanitizeChar (c : Char) : Char :=
  if c = '-' || c = ' ' || c = '.' || c = '@' then '_' else c

/-- The `_sanitize_namespace` function: lowercase, then replace the four separator
characters by underscores, yielding the SQL identifier of the
namespace-specific table. -/
def sanitizeNs (ns : String) : String :=
  String.mk ((ns.toList.map Char.toLower).map sanitizeChar)

/-- Does `needle` match at the head of `hay`? -/
def subAt : List Char → List Char → Bool
  | [], _ => true
  | _ :: _, [] => false
  | c :: cs, d :: ds => c = d && subAt cs ds

/-- Substring test on character lists (Python's `in` on strings). -/
def hasSub (needle : List Char) : List Char → Bool
  | [] => subAt needle []
  | hay@(_ :: rest) => subAt needle hay || hasSub needle rest

/-- The test `'totalsoft' in namespace.lower()`: the exemption marker test of the
copy-to-general step. -/
def exemptNs (ns : String) : Bool :=
  hasSub "totalsoft".toList (ns.toList.map Char.toLower)

/-- Guard of the copy-to-general block:
`copy_to_general and self.namespace != 'general' and 'totalsoft' not in
self.namespace.lower()`. -/
def copyCondition (ns : String) (copy : Bool) : Bool :=
  copy && !(ns == "general") && !(exemptNs ns)

/-- Stamp the namespace column of a row (`values` tuples always carry
`self.namespace`; the general copy carries `'general'`). -/
def stampNs (ns : String) (r : Row) : Row := { r with namespace_ := ns }

/-- The whole store: the global `embeddings` table and one table per
sanitized namespace name (association list keyed by table name). -/
structure DbState where
  embeddings : List Row
  tables : List (String × List Row)
deriving DecidableEq

/-- Contents of a namespace table (a table that was never created is
empty). -/
def tbGet (m : List (String × List Row)) (k : String) : List Row :=
  (List.lookup k m).getD []

/-- Replace (or create) the table stored under a key. -/
def tbSet : List (String × List Row) → String → List Row → List (String × List Row)
  | [], k, v => [(k, v)]
  | (k', v') :: rest, k, v =>
    if k' = k then (k, v) :: rest else (k', v') :: tbSet rest k v

/-- Effect of `CREATE TABLE IF NOT EXISTS` on the table registry: register an
empty table under the key when absent. -/
def etab (m : List (String × List Row)) (k : String) : List (String × List Row) :=
  if (List.lookup k m).isSome then m else m ++ [(k, [])]

/-- Model of `create_namespace_table`: `CREATE TABLE IF NOT EXISTS` — registers an
empty table under the key when absent, otherwise leaves the state
unchanged. -/
def ensureTable (s : DbState) (k : String) : DbState :=
  { s with tables := etab s.tables k }

/-- Model of `NamespacePgVector._upsert_to_postgres`: ensure the namespace table
exists, build the `values` tuples (stamping `self.namespace`), upsert
them into the global table, then into the namespace table; if
`copy_to_general` holds and the namespace is neither `'general'` nor
exempt, upsert a `'general'`-stamped copy into the global table and into
the `general` table. -/
def upsert_to_postgres (ns : String) (items : List Row) (copy : Bool)
    (s : DbState) : DbState :=
  let s1 := ensureTable s (sanitizeNs ns)
  let values := items.map (stampNs ns)
  let s2 : DbState := { s1 with embeddings := upsertBatch s1.embeddings values }
  let nsTableNew := upsertBatch (tbGet s2.tables (sanitizeNs ns)) values
  let s3 : DbState := { s2 with tables := tbSet s2.tables (sanitizeNs ns) nsTableNew }
  if copyCondition ns copy then
    let generalValues := values.map (stampNs "general")
    let s4 := ensureTable s3 "general"
    let s5 : DbState := { s4 with embeddings := upsertBatch s4.embeddings generalValues }
    let genTableNew := upsertBatch (tbGet s5.tables "general") generalValues
    { s5 with tables := tbSet s5.tables "general" genTableNew }
  else s3

/-- The metadata fields `upsert_documents` reads from a document. -/
structure DocMeta where
  chunk_id : Option String
  file_id : Option String
  source : Option String
  chunk_index : Option Int
deriving DecidableEq

/-- A langchain document: page content plus metadata. -/
structure Doc where
  page_content : String
  metadata : DocMeta
deriving DecidableEq

/-- Pair every element with its position (`enumerate`). -/
def idxFrom {α : Type} (n : Nat) : List α → List (Nat × α)
  | [] => []
  | a :: as => (n, a) :: idxFrom (n + 1) as

/-- Model of `doc.metadata.get('chunk_id') or str(uuid4())`: a missing or
empty (falsy) chunk_id is replaced by a freshly generated identifier. -/
def chosenChunkId (m : Option String) (fresh : String) : String :=
  match m with
  | none => fresh
  | some s => if s = "" then fresh else s

/-- Model of `chunk_indices[i] if chunk_indices else doc.metadata.get('chunk_index', i)`
(Python truthiness: `None` and the empty list both fall back to the
metadata; an in-range index is read otherwise). -/
def chosenChunkIndex (cis : Option (List Int)) (m : DocMeta) (i : Nat) : Int :=
  match cis with
  | some l => if l.isEmpty then m.chunk_index.getD (Int.ofNat i) else l.getD i 0
  | none => m.chunk_index.getD (Int.ofNat i)

/-- The `data_with_embeddings` list built by `upsert_documents`: one row
per document, with generated identity for falsy chunk_ids, defaulted
file_id/source, and the embedding of the page content.  `gen i` models
the `str(uuid4())` drawn for position `i`; `embedF` models the embedding
function. -/
def prepareData (docs : List Doc) (cis : Option (List Int)) (gen : Nat → String)
    (embedF : String → List Rat) (ns : String) : List Row :=
  (idxFrom 0 docs).map (fun p =>
    { chunk_id := chosenChunkId p.2.metadata.chunk_id (gen p.1)
      file_id := p.2.metadata.file_id.getD ""
      source := p.2.metadata.source.getD ""
      chunk_index := chosenChunkIndex cis p.2.metadata p.1
      text := p.2.page_content
      embedding := embedF p.2.page_content
      namespace_ := ns })

/-- Model of `NamespacePgVector.upsert_documents`: no-op on an empty batch,
otherwise prepare the data and hand it to `_upsert_to_postgres`. -/
def upsert_documents (docs : List Doc) (cis : Option (List Int)) (copy : Bool)
    (gen : Nat → String) (embedF : String → List Rat) (ns : String)
    (s : DbState) : DbState :=
  if docs.isEmpty then s
  else upsert_to_postgres ns (prepareData docs cis gen embedF ns) copy s

/-- Model of `NamespacePgVector.delete_by_chunk_ids`: delete rows whose chunk_id
is in the list from the global table (no namespace predicate) and from
the issuing namespace's own table. -/
def delete_by_chunk_ids (ids : List String) (ns : String) (s : DbState) : DbState :=
  { embeddings := s.embeddings.filter (fun r => !(decide (r.chunk_id ∈ ids)))
    tables := tbSet s.tables (sanitizeNs ns)
      ((tbGet s.tables (sanitizeNs ns)).filter (fun r => !(decide (r.chunk_id ∈ ids)))) }

/-- Does the identifier look like a path (`'/' in file_id or '\\' in
file_id`)? -/
def hasPathSep (fid : String) : Bool :=
  fid.toList.contains '/' || fid.toList.contains '\\'

/-- Model of `NamespacePgVector.count_by_file_id`: count global-table rows
matching namespace and file_id; if zero and the identifier is path-like,
fall back to counting rows matching namespace and legacy source. -/
def count_by_file_id (tbl : List Row) (ns fid : String) : Nat :=
  let byFile := (tbl.filter (fun r => r.namespace_ == ns && r.file_id == fid)).length
  if byFile == 0 && hasPathSep fid then
    (tbl.filter (fun r => r.namespace_ == ns && r.source == fid)).length
  else byFile

/-- Python truthiness of an optional string filter argument. -/
def truthyS : Option String → Bool
  | none => false
  | some s => !(s == "")

/-- The WHERE clause built by `similarity_search`: always the namespace
predicate; then the file_id predicate if `filter_file_id` is truthy, else
the source predicate if `filter_source` is truthy. -/
def whereFilter (ns : String) (ffid fsrc : Option String) (r : Row) : Bool :=
  r.namespace_ == ns &&
    (if truthyS ffid then r.file_id == ffid.getD ""
     else if truthyS fsrc then r.source == fsrc.getD ""
     else true)

/-- Model of `NamespacePgVector.similarity_search` over the global table:
filter by the WHERE clause, order by distance to the query embedding
ascending (`ORDER BY embedding <=> $1`), keep the first `k` rows
(`LIMIT $2`), and report each row with similarity `1 - distance`.
`dist` is the (opaque) distance of a stored embedding to the already
computed query embedding. -/
def similarity_search (dist : List Rat → Rat) (k : Nat) (ns : String)
    (ffid fsrc : Option String) (tbl : List Row) : List (Row × Rat) :=
  (((tbl.filter (whereFilter ns ffid fsrc)).insertionSort
      (fun a b => dist a.embedding ≤ dist b.embedding)).take k).map
    (fun r => (r, 1 - dist r.embedding))

/-- The class-level pool state: the current pool (if initialized) and a
counter supplying fresh pool identities. -/
structure PoolState where
  pool : Option Nat
  next : Nat
deriving DecidableEq

/-- Model of `PSQLDatabase.get_pool`: create the pool on first use, afterwards
return the existing one. -/
def get_pool (s : PoolState) : Nat × PoolState :=
  match s.pool with
  | some p => (p, s)
  | none => (s.next, { pool := some s.next, next := s.next + 1 })

/-- Model of `PSQLDatabase.close_pool`: close and forget the pool when one
exists, otherwise do nothing. -/
def close_pool (s : PoolState) : PoolState :=
  match s.pool with
  | some _ => { pool := none, next := s.next }
  | none => s

/-- The primitive operations the repair protocol performs. -/
inductive RepairOp
  | createIdx
  | dedupRows
deriving DecidableEq

/-- Model of `_ensure_unique_index_on_chunk_id`, with the outcome of the first
index creation, of the deduplication, and of the retried index creation
supplied as oracles: try to create; on failure deduplicate and retry
once; re-raise the inner error if deduplication or the retry fails.
Returns the overall result paired with the trace of operations run. -/
def ensure_unique_index (c1 d c2 : Except String Unit) :
    Except String Unit × List RepairOp :=
  match c1 with
  | Except.ok _ => (Except.ok (), [RepairOp.createIdx])
  | Except.error _ =>
    match d with
    | Except.error e2 => (Except.error e2, [RepairOp.createIdx, RepairOp.dedupRows])
    | Except.ok _ =>
      match c2 with
      | Except.ok _ =>
        (Except.ok (), [RepairOp.createIdx, RepairOp.dedupRows, RepairOp.createIdx])
      | Except.error e2 =>
        (Except.error e2, [RepairOp.createIdx, RepairOp.dedupRows, RepairOp.createIdx])

/-- A stored row of a physical table for the deduplication query: the
row payload plus its `created_at` column.  The physical position (ctid)
is the index in the table list. -/
structure SRow where
  row : Row
  created_at : Nat
deriving DecidableEq

/-- The `(created_at DESC, ctid DESC)` ranking: row `a` at position `i`
sorts strictly before row `b` at position `j`. -/
def beatsP (a : SRow) (i : Nat) (b : SRow) (j : Nat) : Prop :=
  b.created_at < a.created_at ∨ (a.created_at = b.created_at ∧ j < i)

instance (a : SRow) (i : Nat) (b : SRow) (j : Nat) : Decidable (beatsP a i b j) := by
  unfold beatsP
  infer_instance

/-- Holding rank one (`row_number() = 1`) in the dedup CTE: no other row of the same
chunk_id partition ranks before this one. -/
def isWinner (t : List SRow) (i : Nat) (a : SRow) : Bool :=
  (idxFrom 0 t).all (fun p =>
    !(p.2.row.chunk_id == a.row.chunk_id) || (p.1 == i) ||
      decide (beatsP a i p.2 p.1))

/-- Model of `_deduplicate_chunk_id`: delete every row whose rank within its
chunk_id partition (ordered by `created_at DESC, ctid DESC`) is greater
than one, keeping table order of the survivors. -/
def deduplicate_chunk_id (t : List SRow) : List SRow :=
  ((idxFrom 0 t).filter (fun p => isWinner t p.1 p.2)).map (fun p => p.2)

/-- Mirroring for one namespace: every row of the namespace-specific
table is present — with identical values in every column, including
`namespace` — in the global table. -/
def mirrorNs (s : DbState) (ns : String) : Prop :=
  ∀ r ∈ tbGet s.tables (sanitizeNs ns), r ∈ s.embeddings

instance (s : DbState) (ns : String) : Decidable (mirrorNs s ns) := by
  unfold mirrorNs
  infer_instance

/-- Iterated replays of the same prepared batch through the store upsert. -/
def replayStore (ns : String) (items : List Row) (copy : Bool) : Nat → DbState → DbState
  | 0, s => s
  | n + 1, s => replayStore ns items copy n (upsert_to_postgres ns items copy s)

/-- A sample chunk row in namespace `alice`. -/
def rowA : Row :=
  { chunk_id := "c1", file_id := "f1", source := "s1", chunk_index := 0,
    text := "hello", embedding := [(1 : Rat)], namespace_ := "alice" }

/-- A legacy row: empty file_id, path-like source. -/
def rowLegacy : Row :=
  { chunk_id := "c2", file_id := "", source := "docs/report.pdf", chunk_index := 0,
    text := "legacy", embedding := [], namespace_ := "alice" }

/-- A sample chunk row in namespace `general`. -/
def rowG : Row :=
  { chunk_id := "c3", file_id := "f3", source := "s3", chunk_index := 1,
    text := "gen", embedding := [], namespace_ := "general" }

/-- The empty database state. -/
def emptyState : DbState := { embeddings := [], tables := [] }

/-- A state with one row mirrored into the `alice` table. -/
def stateA : DbState := { embeddings := [rowA], tables := [("alice", [rowA])] }

/-- A document without a chunk_id in its metadata. -/
def docU : Doc :=
  { page_content := "txt",
    metadata := { chunk_id := none, file_id := none, source := none, chunk_index := none } }

/-- An older stored row bearing chunk_id `c1`. -/
def srOld : SRow := { row := rowA, created_at := 5 }

/-- A newer stored row bearing the same chunk_id `c1`. -/
def srNew : SRow := { row := { rowA with text := "newer" }, created_at := 7 }

/-! ## Theorems -/

theorem chunkIds_cons (v : Row) (rest : List Row) :
    chunkIds (v :: rest) = v.chunk_id :: chunkIds rest := rfl

theorem lastOcc_cons (v : Row) (rest : List Row) (c : String) :
    lastOcc (v :: rest) c =
      match lastOcc rest c with
      | some w => some w
      | none => if v.chunk_id = c then some v else none := rfl

theorem lastOcc_chunk_id {vs : List Row} {c : String} {w : Row}
    (h : lastOcc vs c = some w) : w.chunk_id = c := by
  induction vs with
  | nil => simp [lastOcc] at h
  | cons v rest ih =>
    rw [lastOcc_cons] at h
    cases hr : lastOcc rest c with
    | some u =>
      rw [hr] at h
      simp only [Option.some.injEq] at h
      exact ih (h ▸ hr)
    | none =>
      rw [hr] at h
      by_cases hc : v.chunk_id = c
      · simp [hc] at h
        rw [← h]; exact hc
      · simp [hc] at h

theorem lastOcc_mem {vs : List Row} {c : String} {w : Row}
    (h : lastOcc vs c = some w) : w ∈ vs := by
  induction vs with
  | nil => simp [lastOcc] at h
  | cons v rest ih =>
    rw [lastOcc_cons] at h
    cases hr : lastOcc rest c with
    | some u =>
      rw [hr] at h
      simp only [Option.some.injEq] at h
      exact List.mem_cons_of_mem _ (ih (h ▸ hr))
    | none =>
      rw [hr] at h
      by_cases hc : v.chunk_id = c
      · simp [hc] at h
        exact h ▸ List.mem_cons_self _ _
      · simp [hc] at h

theorem lastOcc_isSome_iff {vs : List Row} {c : String} :
    (lastOcc vs c).isSome = true ↔ c ∈ chunkIds vs := by
  induction vs with
  | nil => simp [lastOcc, chunkIds]
  | cons v rest ih =>
    rw [lastOcc_cons, chunkIds_cons]
    cases hr : lastOcc rest c with
    | some u =>
      simp only [Option.isSome_some, true_iff, List.mem_cons]
      exact Or.inr (ih.1 (by rw [hr]; rfl))
    | none =>
      have hrest : c ∉ chunkIds rest := by
        intro h
        have := ih.2 h
        rw [hr] at this
        simp at this
      by_cases hc : v.chunk_id = c
      · simp [hc]
      · simp only [if_neg hc, Option.isSome_none, List.mem_cons]
        constructor
        · intro h; simp at h
        · rintro (h | h)
          · exact absurd h.symm hc
          · exact absurd h hrest

theorem lastOcc_eq_none_of_not_mem {vs : List Row} {c : String}
    (h : c ∉ chunkIds vs) : lastOcc vs c = none := by
  cases hl : lastOcc vs c with
  | none => rfl
  | some w => exact absurd (lastOcc_isSome_iff.1 (by simp [hl])) h

theorem lastOcc_of_mem {vs : List Row} {c : String} (h : c ∈ chunkIds vs) :
    ∃ w, lastOcc vs c = some w := by
  cases hl : lastOcc vs c with
  | none => exact absurd (lastOcc_isSome_iff.2 h) (by simp [hl])
  | some w => exact ⟨w, rfl⟩

theorem patchRow_chunk_id (vs : List Row) (r : Row) :
    (patchRow vs r).chunk_id = r.chunk_id := by
  unfold patchRow
  cases hl : lastOcc vs r.chunk_id with
  | none => rfl
  | some w => simpa using lastOcc_chunk_id hl

theorem patchRow_cons_ne {v r : Row} (rest : List Row)
    (hne : r.chunk_id ≠ v.chunk_id) : patchRow (v :: rest) r = patchRow rest r := by
  unfold patchRow
  rw [lastOcc_cons]
  cases hl : lastOcc rest r.chunk_id with
  | some w => simp [hl]
  | none => simp [hl, if_neg (fun h : v.chunk_id = r.chunk_id => hne h.symm)]

theorem chunkIds_map_replace (t : List Row) (v : Row) :
    chunkIds (t.map (replaceRow v)) = chunkIds t := by
  unfold chunkIds
  rw [List.map_map]
  apply List.map_congr_left
  intro r _
  unfold Function.comp replaceRow
  by_cases hc : r.chunk_id = v.chunk_id <;> simp [hc]

theorem patchRow_cons_eq (v : Row) (rest : List Row) (r : Row) :
    patchRow rest (replaceRow v r) = patchRow (v :: rest) r := by
  by_cases hc : r.chunk_id = v.chunk_id
  · have hrep : replaceRow v r = v := by simp [replaceRow, hc]
    rw [hrep]
    unfold patchRow
    rw [lastOcc_cons, hc]
    cases hl : lastOcc rest v.chunk_id with
    | some w => simp [hl]
    | none => simp [hl]
  · have hrep : replaceRow v r = r := by simp [replaceRow, hc]
    rw [hrep, patchRow_cons_ne rest hc]

/-- Closed form for a whole-batch upsert: every pre-existing row is
patched in place by the last occurrence of its chunk_id, and the batch's
fresh chunk_ids are appended in first-occurrence order with
last-occurrence values. -/
theorem upsertBatch_closed (vs : List Row) : ∀ t : List Row,
    upsertBatch t vs = t.map (patchRow vs) ++ newRows (chunkIds t) vs := by
  induction vs with
  | nil =>
    intro t
    simp only [upsertBatch, List.foldl_nil, newRows, List.append_nil]
    nth_rewrite 1 [(List.map_id t).symm]
    apply List.map_congr_left
    intro r _
    simp [patchRow, lastOcc]
  | cons v rest ih =>
    intro t
    have step : upsertBatch t (v :: rest) = upsertBatch (upsertRow t v) rest := rfl
    rw [step, ih]
    unfold upsertRow
    by_cases hmem : v.chunk_id ∈ chunkIds t
    · rw [if_pos hmem]
      rw [chunkIds_map_replace]
      have hnews : newRows (chunkIds t) (v :: rest) = newRows (chunkIds t) rest := by
        simp [newRows, hmem]
      rw [hnews, List.map_map]
      congr 1
      apply List.map_congr_left
      intro r _
      exact patchRow_cons_eq v rest r
    · rw [if_neg hmem]
      have hids : chunkIds (t ++ [v]) = chunkIds t ++ [v.chunk_id] := by
        simp [chunkIds]
      rw [hids, List.map_append]
      have hnews : newRows (chunkIds t) (v :: rest)
          = patchRow rest v :: newRows (chunkIds t ++ [v.chunk_id]) rest := by
        simp [newRows, hmem]
      rw [hnews]
      have hmap : t.map (patchRow rest) = t.map (patchRow (v :: rest)) := by
        apply List.map_congr_left
        intro r hr
        have hne : r.chunk_id ≠ v.chunk_id := by
          intro h
          exact hmem (h ▸ List.mem_map_of_mem (fun x => x.chunk_id) hr)
        exact (patchRow_cons_ne rest hne).symm
      rw [hmap]
      simp [List.append_assoc]

theorem findRow_some {t : List Row} {c : String} {r : Row}
    (h : findRow t c = some r) : r.chunk_id = c ∧ r ∈ t := by
  have hmem := List.mem_of_find?_eq_some h
  have hp := List.find?_some h
  simp only [beq_iff_eq] at hp
  exact ⟨hp, hmem⟩

theorem findRow_isSome_iff {t : List Row} {c : String} :
    (findRow t c).isSome = true ↔ c ∈ chunkIds t := by
  unfold findRow chunkIds
  simp only [List.find?_isSome, beq_iff_eq, List.mem_map]

theorem findRow_eq_none_of_not_mem {t : List Row} {c : String}
    (h : c ∉ chunkIds t) : findRow t c = none := by
  cases hf : findRow t c with
  | none => rfl
  | some r => exact absurd (findRow_isSome_iff.1 (by simp [hf])) h

theorem findRow_map_patch (t vs : List Row) (c : String) :
    findRow (t.map (patchRow vs)) c = (findRow t c).map (patchRow vs) := by
  unfold findRow
  rw [List.find?_map]
  have hfun : ((fun r : Row => r.chunk_id == c) ∘ patchRow vs)
      = (fun r : Row => r.chunk_id == c) := by
    funext r
    simp only [Function.comp_apply, patchRow_chunk_id]
  rw [hfun]

theorem newRows_lastOcc {vs : List Row} : ∀ {known : List String} {x : Row},
    x ∈ newRows known vs → lastOcc vs x.chunk_id = some x := by
  induction vs with
  | nil => intro known x h; simp [newRows] at h
  | cons v rest ih =>
    intro known x h
    rw [lastOcc_cons]
    unfold newRows at h
    by_cases hv : v.chunk_id ∈ known
    · rw [if_pos hv] at h
      rw [ih h]
    · rw [if_neg hv] at h
      rcases List.mem_cons.1 h with h | h
      · subst h
        rw [patchRow_chunk_id]
        unfold patchRow
        cases hl : lastOcc rest v.chunk_id with
        | some w => simp [hl]
        | none => simp [hl]
      · rw [ih h]

theorem newRows_eq_nil {vs : List Row} : ∀ {known : List String},
    (∀ x ∈ vs, x.chunk_id ∈ known) → newRows known vs = [] := by
  induction vs with
  | nil => intro known _; rfl
  | cons v rest ih =>
    intro known h
    unfold newRows
    rw [if_pos (h v (List.mem_cons_self _ _))]
    exact ih (fun x hx => h x (List.mem_cons_of_mem _ hx))

theorem findRow_newRows_of_lastOcc {vs : List Row} :
    ∀ {known : List String} {c : String} {w : Row},
    lastOcc vs c = some w → c ∉ known → findRow (newRows known vs) c = some w := by
  induction vs with
  | nil => intro _ _ _ h _; simp [lastOcc] at h
  | cons v rest ih =>
    intro known c w h hc
    rw [lastOcc_cons] at h
    unfold newRows
    by_cases hv : v.chunk_id ∈ known
    · rw [if_pos hv]
      have hne : v.chunk_id ≠ c := fun he => hc (he ▸ hv)
      cases hr : lastOcc rest c with
      | some u =>
        rw [hr] at h
        simp only [Option.some.injEq] at h
        exact ih (h ▸ hr) hc
      | none =>
        rw [hr] at h
        simp [hne] at h
    · rw [if_neg hv]
      by_cases he : v.chunk_id = c
      · have hhead : ((patchRow rest v).chunk_id == c) = true := by
          rw [patchRow_chunk_id]; exact beq_iff_eq.2 he
        have hfind : findRow (patchRow rest v :: newRows (known ++ [v.chunk_id]) rest) c
            = some (patchRow rest v) := List.find?_cons_of_pos _ hhead
        rw [hfind]
        cases hr : lastOcc rest c with
        | some u =>
          rw [hr] at h
          simp only [Option.some.injEq] at h
          unfold patchRow
          rw [he, hr, h]
          rfl
        | none =>
          rw [hr] at h
          rw [if_pos he] at h
          injection h with h
          unfold patchRow
          rw [he, hr, h]
          rfl
      · have hhead : ((patchRow rest v).chunk_id == c) = false := by
          rw [patchRow_chunk_id]; simpa using he
        have hfind : findRow (patchRow rest v :: newRows (known ++ [v.chunk_id]) rest) c
            = findRow (newRows (known ++ [v.chunk_id]) rest) c :=
          List.find?_cons_of_neg _ (by simp [hhead])
        rw [hfind]
        have hrest : lastOcc rest c = some w := by
          cases hr : lastOcc rest c with
          | some u =>
            rw [hr] at h
            simpa using h
          | none =>
            rw [hr] at h
            simp [he] at h
        exact ih hrest (by
          intro hmem
          rcases List.mem_append.1 hmem with hmem | hmem
          · exact hc hmem
          · exact he (List.mem_singleton.1 hmem).symm)

theorem findRow_newRows_of_none {vs : List Row} {known : List String} {c : String}
    (h : lastOcc vs c = none) : findRow (newRows known vs) c = none := by
  cases hf : findRow (newRows known vs) c with
  | none => rfl
  | some y =>
    obtain ⟨hy, hmem⟩ := findRow_some hf
    have := newRows_lastOcc hmem
    rw [hy, h] at this
    cases this

theorem findRow_append (A B : List Row) (c : String) :
    findRow (A ++ B) c = (findRow A c).or (findRow B c) := List.find?_append

/-- Lookup after a whole-batch upsert: chunk_ids occurring in the batch
resolve to the batch's last occurrence, all others are unchanged. -/
theorem findRow_upsertBatch (t vs : List Row) (c : String) :
    findRow (upsertBatch t vs) c = (lastOcc vs c).or (findRow t c) := by
  rw [upsertBatch_closed, findRow_append, findRow_map_patch]
  cases hl : lastOcc vs c with
  | some w =>
    cases hf : findRow t c with
    | some r =>
      have hrc : r.chunk_id = c := (findRow_some hf).1
      have hpr : patchRow vs r = w := by
        unfold patchRow
        rw [hrc, hl]
        rfl
      simp only [Option.map_some', hpr]
      rfl
    | none =>
      have hc : c ∉ chunkIds t := by
        intro hc
        have hs : (findRow t c).isSome = true := findRow_isSome_iff.2 hc
        rw [hf] at hs
        cases hs
      simp only [Option.map_none']
      rw [findRow_newRows_of_lastOcc hl hc]
      rfl
  | none =>
    cases hf : findRow t c with
    | some r =>
      have hrc : r.chunk_id = c := (findRow_some hf).1
      have hpr : patchRow vs r = r := by
        unfold patchRow
        rw [hrc, hl]
        rfl
      simp only [Option.map_some', hpr]
      rfl
    | none =>
      simp only [Option.map_none']
      rw [findRow_newRows_of_none hl]

theorem lastOcc_mem_upsertBatch {vs : List Row} {c : String} {w : Row}
    (h : lastOcc vs c = some w) (t : List Row) : w ∈ upsertBatch t vs := by
  have hf : findRow (upsertBatch t vs) c = some w := by
    rw [findRow_upsertBatch, h]
    rfl
  exact (findRow_some hf).2

/-- Any row of the upserted table is either a surviving pre-existing row
or a row of the batch. -/
theorem mem_upsertBatch {t vs : List Row} {r : Row}
    (h : r ∈ upsertBatch t vs) : r ∈ t ∨ r ∈ vs := by
  rw [upsertBatch_closed] at h
  rcases List.mem_append.1 h with h | h
  · rcases List.mem_map.1 h with ⟨r0, hr0, hpr⟩
    unfold patchRow at hpr
    cases hl : lastOcc vs r0.chunk_id with
    | none =>
      rw [hl] at hpr
      exact Or.inl (hpr ▸ hr0)
    | some w =>
      rw [hl] at hpr
      exact Or.inr (hpr ▸ lastOcc_mem hl)
  · exact Or.inr (lastOcc_mem (newRows_lastOcc h))

theorem mem_chunkIds_upsertBatch {t vs : List Row} {c : String} :
    c ∈ chunkIds (upsertBatch t vs) ↔ c ∈ chunkIds t ∨ c ∈ chunkIds vs := by
  rw [← findRow_isSome_iff, findRow_upsertBatch]
  cases hl : lastOcc vs c with
  | some w =>
    constructor
    · intro _
      exact Or.inr (lastOcc_isSome_iff.1 (by simp [hl]))
    · intro _
      rfl
  | none =>
    simp only [Option.none_or]
    rw [findRow_isSome_iff]
    constructor
    · exact Or.inl
    · rintro (h | h)
      · exact h
      · rcases lastOcc_of_mem h with ⟨w, hw⟩
        rw [hw] at hl
        cases hl

theorem chunkIds_append (a b : List Row) :
    chunkIds (a ++ b) = chunkIds a ++ chunkIds b := by
  simp [chunkIds]

theorem nodup_chunkIds_upsertRow {t : List Row} (v : Row)
    (h : (chunkIds t).Nodup) : (chunkIds (upsertRow t v)).Nodup := by
  unfold upsertRow
  by_cases hmem : v.chunk_id ∈ chunkIds t
  · rw [if_pos hmem, chunkIds_map_replace]
    exact h
  · rw [if_neg hmem, chunkIds_append]
    simp only [chunkIds, List.map_cons, List.map_nil]
    rw [List.nodup_append]
    exact ⟨h, List.nodup_singleton _, by
      intro a ha hb
      rw [List.mem_singleton] at hb
      exact hmem (hb ▸ ha)⟩

theorem nodup_chunkIds_upsertBatch {vs : List Row} : ∀ {t : List Row},
    (chunkIds t).Nodup → (chunkIds (upsertBatch t vs)).Nodup := by
  induction vs with
  | nil => intro t h; exact h
  | cons v rest ih =>
    intro t h
    have step : upsertBatch t (v :: rest) = upsertBatch (upsertRow t v) rest := rfl
    rw [step]
    exact ih (nodup_chunkIds_upsertRow v h)

theorem countById_eq_one {t : List Row} {c : String}
    (hn : (chunkIds t).Nodup) (hc : c ∈ chunkIds t) : countById t c = 1 := by
  induction t with
  | nil => simp [chunkIds] at hc
  | cons r rest ih =>
    rw [chunkIds_cons] at hc hn
    rcases List.nodup_cons.1 hn with ⟨hr, hrest⟩
    unfold countById
    by_cases he : r.chunk_id = c
    · rw [List.filter_cons_of_pos (by simpa using he)]
      have hnone : rest.filter (fun x => x.chunk_id == c) = [] := by
        apply List.filter_eq_nil_iff.2
        intro x hx hb
        rw [beq_iff_eq] at hb
        exact hr (he ▸ hb ▸ List.mem_map_of_mem (fun y => y.chunk_id) hx)
      simp [hnone]
    · rw [List.filter_cons_of_neg (by simpa using he)]
      rcases List.mem_cons.1 hc with hc | hc
      · exact absurd hc.symm he
      · exact ih hrest hc

theorem patchRow_patchRow (vs : List Row) (r : Row) :
    patchRow vs (patchRow vs r) = patchRow vs r := by
  cases hl : lastOcc vs r.chunk_id with
  | none =>
    have h1 : patchRow vs r = r := by
      unfold patchRow
      rw [hl]
      rfl
    rw [h1]
    exact h1
  | some w =>
    have h1 : patchRow vs r = w := by
      unfold patchRow
      rw [hl]
      rfl
    rw [h1]
    unfold patchRow
    rw [lastOcc_chunk_id hl, hl]
    rfl

/-- Replaying a batch on an already-upserted table is the identity:
the upsert is idempotent at the whole-table level. -/
theorem upsertBatch_idem (t vs : List Row) :
    upsertBatch (upsertBatch t vs) vs = upsertBatch t vs := by
  rw [upsertBatch_closed vs (upsertBatch t vs)]
  have hnews : newRows (chunkIds (upsertBatch t vs)) vs = [] := by
    apply newRows_eq_nil
    intro x hx
    exact mem_chunkIds_upsertBatch.2
      (Or.inr (List.mem_map_of_mem (fun y => y.chunk_id) hx))
  rw [hnews, List.append_nil]
  nth_rewrite 2 [upsertBatch_closed vs t]
  rw [upsertBatch_closed vs t, List.map_append, List.map_map]
  congr 1
  · apply List.map_congr_left
    intro r _
    exact patchRow_patchRow vs r
  · have hfix : ∀ x ∈ newRows (chunkIds t) vs, patchRow vs x = id x := by
      intro x hx
      have hlx := newRows_lastOcc hx
      unfold patchRow
      rw [hlx]
      rfl
    rw [List.map_congr_left hfix, List.map_id]

theorem chunkIds_map_patch (t vs : List Row) :
    chunkIds (t.map (patchRow vs)) = chunkIds t := by
  unfold chunkIds
  rw [List.map_map]
  apply List.map_congr_left
  intro r _
  exact patchRow_chunk_id vs r

/-- When every chunk_id of the batch is already present, the upsert
performs only in-place overwrites and appends nothing. -/
theorem upsertBatch_of_ids_present {t vs : List Row}
    (h : ∀ x ∈ vs, x.chunk_id ∈ chunkIds t) :
    upsertBatch t vs = t.map (patchRow vs) := by
  rw [upsertBatch_closed, newRows_eq_nil h, List.append_nil]

/-- Any row of an upserted table whose chunk_id occurs in the batch
carries the batch's last-occurrence value. -/
theorem row_value_of_mem_batch {Y g : List Row} {x : Row}
    (hx : x ∈ upsertBatch Y g) (hid : x.chunk_id ∈ chunkIds g) :
    lastOcc g x.chunk_id = some x := by
  rw [upsertBatch_closed] at hx
  rcases List.mem_append.1 hx with hx | hx
  · rcases List.mem_map.1 hx with ⟨y, hy, hpy⟩
    have hidy : y.chunk_id = x.chunk_id := by
      rw [← hpy, patchRow_chunk_id]
    rcases lastOcc_of_mem (hidy ▸ hid) with ⟨w, hw⟩
    have : patchRow g y = w := by
      unfold patchRow
      rw [hw]
      rfl
    rw [hidy] at hw
    rw [hw, ← hpy, this]
  · exact newRows_lastOcc hx

/-- Alternating a batch with its namespace-rewritten copy (same
chunk_ids) twice is the same as alternating once: the second round only
rewrites every touched row back to the value it already has. -/
theorem upsertBatch_alt (G v g : List Row)
    (hids : ∀ c, c ∈ chunkIds v ↔ c ∈ chunkIds g) :
    upsertBatch (upsertBatch (upsertBatch (upsertBatch G v) g) v) g
      = upsertBatch (upsertBatch G v) g := by
  have hvX : ∀ x ∈ v, x.chunk_id ∈ chunkIds (upsertBatch (upsertBatch G v) g) := by
    intro x hx
    exact mem_chunkIds_upsertBatch.2 (Or.inl (mem_chunkIds_upsertBatch.2
      (Or.inr (List.mem_map_of_mem (fun y => y.chunk_id) hx))))
  rw [upsertBatch_of_ids_present hvX]
  have hgX : ∀ x ∈ g, x.chunk_id ∈
      chunkIds ((upsertBatch (upsertBatch G v) g).map (patchRow v)) := by
    intro x hx
    rw [chunkIds_map_patch]
    have hxv : x.chunk_id ∈ chunkIds v :=
      (hids x.chunk_id).2 (List.mem_map_of_mem (fun y => y.chunk_id) hx)
    exact mem_chunkIds_upsertBatch.2 (Or.inl (mem_chunkIds_upsertBatch.2 (Or.inr hxv)))
  rw [upsertBatch_of_ids_present hgX, List.map_map]
  have hfix : ∀ x ∈ upsertBatch (upsertBatch G v) g,
      (patchRow g ∘ patchRow v) x = id x := by
    intro x hx
    simp only [Function.comp_apply, id_eq]
    by_cases hxv : x.chunk_id ∈ chunkIds v
    · have hxg : x.chunk_id ∈ chunkIds g := (hids x.chunk_id).1 hxv
      have hW : lastOcc g x.chunk_id = some x := row_value_of_mem_batch hx hxg
      rcases lastOcc_of_mem hxv with ⟨w, hw⟩
      have hpv : patchRow v x = w := by
        unfold patchRow
        rw [hw]
        rfl
      rw [hpv]
      unfold patchRow
      rw [lastOcc_chunk_id hw, hW]
      rfl
    · have hxg : x.chunk_id ∉ chunkIds g := fun h => hxv ((hids x.chunk_id).2 h)
      have hpv : patchRow v x = x := by
        unfold patchRow
        rw [lastOcc_eq_none_of_not_mem hxv]
        rfl
      rw [hpv]
      unfold patchRow
      rw [lastOcc_eq_none_of_not_mem hxg]
      rfl
  rw [List.map_congr_left hfix, List.map_id]

theorem replayBatch_converges (vs : List Row) :
    ∀ (n : Nat) (t : List Row), replayBatch vs (n + 1) t = upsertBatch t vs := by
  intro n
  induction n with
  | zero => intro t; rfl
  | succ n ih =>
    intro t
    have step : replayBatch vs (n + 2) t = replayBatch vs (n + 1) (upsertBatch t vs) := rfl
    rw [step, ih, upsertBatch_idem]

/-- Writing the same batch into two tables preserves row containment:
if every row of `T` also lives in `E`, the same holds after the batch is
applied to both. -/
theorem upsertBatch_preserves_mirror {T E : List Row} (vs : List Row)
    (hmir : ∀ r ∈ T, r ∈ E) :
    ∀ r ∈ upsertBatch T vs, r ∈ upsertBatch E vs := by
  intro r hr
  rw [upsertBatch_closed] at hr
  rcases List.mem_append.1 hr with hr | hr
  · rcases List.mem_map.1 hr with ⟨r0, hr0, hpr⟩
    cases hl : lastOcc vs r0.chunk_id with
    | some w =>
      have hrw : r = w := by
        rw [← hpr]
        unfold patchRow
        rw [hl]
        rfl
      exact hrw ▸ lastOcc_mem_upsertBatch hl E
    | none =>
      have hrr : r = r0 := by
        rw [← hpr]
        unfold patchRow
        rw [hl]
        rfl
      have hrE : r0 ∈ E := hmir r0 hr0
      have hpat : patchRow vs r0 = r0 := by
        unfold patchRow
        rw [hl]
        rfl
      rw [upsertBatch_closed]
      exact List.mem_append.2 (Or.inl (hrr ▸ hpat ▸ List.mem_map_of_mem (patchRow vs) hrE))
  · exact lastOcc_mem_upsertBatch (newRows_lastOcc hr) E

theorem lookup_tbSet_self (m : List (String × List Row)) (k : String) (v : List Row) :
    List.lookup k (tbSet m k v) = some v := by
  induction m with
  | nil => simp [tbSet]
  | cons p rest ih =>
    obtain ⟨a, b⟩ := p
    unfold tbSet
    by_cases hk : a = k
    · rw [if_pos hk]
      simp
    · rw [if_neg hk]
      rw [List.lookup_cons]
      have hb : (k == a) = false := by
        simp only [beq_eq_false_iff_ne]
        exact fun h => hk h.symm
      rw [hb]
      exact ih

theorem lookup_tbSet_ne (m : List (String × List Row)) {q k : String}
    (h : q ≠ k) (v : List Row) :
    List.lookup q (tbSet m k v) = List.lookup q m := by
  have hqk : (q == k) = false := by
    simp only [beq_eq_false_iff_ne]
    exact h
  induction m with
  | nil => simp [tbSet, List.lookup_cons, hqk]
  | cons p rest ih =>
    obtain ⟨a, b⟩ := p
    unfold tbSet
    by_cases hk : a = k
    · rw [if_pos hk]
      rw [List.lookup_cons, List.lookup_cons]
      rw [hk, hqk]
    · rw [if_neg hk]
      rw [List.lookup_cons, List.lookup_cons]
      by_cases hq : q = a
      · have hqa : (q == a) = true := beq_iff_eq.2 hq
        rw [hqa]
      · have hqa : (q == a) = false := by
          simp only [beq_eq_false_iff_ne]
          exact hq
        rw [hqa]
        exact ih

theorem tbGet_tbSet_self (m : List (String × List Row)) (k : String) (v : List Row) :
    tbGet (tbSet m k v) k = v := by
  unfold tbGet
  rw [lookup_tbSet_self]
  rfl

theorem tbGet_tbSet_ne (m : List (String × List Row)) {q k : String}
    (h : q ≠ k) (v : List Row) : tbGet (tbSet m k v) q = tbGet m q := by
  unfold tbGet
  rw [lookup_tbSet_ne m h]

theorem tbSet_cons (x : String) (y : List Row) (rest : List (String × List Row))
    (k : String) (v : List Row) :
    tbSet ((x, y) :: rest) k v
      = if x = k then (k, v) :: rest else (x, y) :: tbSet rest k v := rfl

theorem tbSet_tbSet (m : List (String × List Row)) (k : String) (a b : List Row) :
    tbSet (tbSet m k a) k b = tbSet m k b := by
  induction m with
  | nil => simp [tbSet]
  | cons p rest ih =>
    obtain ⟨x, y⟩ := p
    by_cases hk : x = k
    · rw [tbSet_cons, if_pos hk, tbSet_cons, if_pos rfl, tbSet_cons, if_pos hk]
    · rw [tbSet_cons, if_neg hk, tbSet_cons, if_neg hk, ih, tbSet_cons, if_neg hk]

theorem tbSet_eq_of_lookup {m : List (String × List Row)} {k : String} {a : List Row}
    (h : List.lookup k m = some a) : tbSet m k a = m := by
  induction m with
  | nil => simp at h
  | cons p rest ih =>
    obtain ⟨x, y⟩ := p
    rw [List.lookup_cons] at h
    by_cases hk : x = k
    · rw [tbSet_cons, if_pos hk]
      have hb : (k == x) = true := beq_iff_eq.2 hk.symm
      rw [hb] at h
      have hy : y = a := by
        injection h with h
      rw [hk, hy]
    · rw [tbSet_cons, if_neg hk]
      have hb : (k == x) = false := by
        simp only [beq_eq_false_iff_ne]
        exact fun hq => hk hq.symm
      rw [hb] at h
      rw [ih h]

theorem lookup_tbSet_isSome {m : List (String × List Row)} {q : String}
    (h : (List.lookup q m).isSome = true) (k : String) (v : List Row) :
    (List.lookup q (tbSet m k v)).isSome = true := by
  by_cases hq : q = k
  · rw [hq, lookup_tbSet_self]
    rfl
  · rw [lookup_tbSet_ne m hq]
    exact h

theorem ensureTable_embeddings (s : DbState) (k : String) :
    (ensureTable s k).embeddings = s.embeddings := rfl

theorem ensureTable_tables (s : DbState) (k : String) :
    (ensureTable s k).tables = etab s.tables k := rfl

theorem etab_eq_of_isSome {m : List (String × List Row)} {k : String}
    (h : (List.lookup k m).isSome = true) : etab m k = m := by
  unfold etab
  rw [if_pos h]

theorem ensureTable_eq_of_isSome {s : DbState} {k : String}
    (h : (List.lookup k s.tables).isSome = true) : ensureTable s k = s := by
  unfold ensureTable
  rw [etab_eq_of_isSome h]

theorem lookup_append_ensure (m : List (String × List Row)) (k : String) (q : String) :
    List.lookup q (m ++ [(k, [])])
      = (List.lookup q m).or (if q = k then some [] else none) := by
  induction m with
  | nil =>
    rw [List.nil_append, List.lookup_nil, List.lookup_cons, Option.none_or]
    by_cases hq : q = k
    · rw [if_pos hq, beq_iff_eq.2 hq]
    · have hb : (q == k) = false := by
        simp only [beq_eq_false_iff_ne]
        exact hq
      rw [if_neg hq, hb]
      rfl
  | cons p rest ih =>
    obtain ⟨x, y⟩ := p
    rw [List.cons_append, List.lookup_cons, List.lookup_cons]
    by_cases hq : q = x
    · rw [beq_iff_eq.2 hq]
      rfl
    · have hb : (q == x) = false := by
        simp only [beq_eq_false_iff_ne]
        exact hq
      rw [hb]
      exact ih

theorem lookup_etab_self (m : List (String × List Row)) (k : String) :
    (List.lookup k (etab m k)).isSome = true := by
  unfold etab
  by_cases h : (List.lookup k m).isSome = true
  · rw [if_pos h]
    exact h
  · rw [if_neg h]
    simp only [lookup_append_ensure, if_pos rfl]
    cases hl : List.lookup k m with
    | none => rfl
    | some v => rfl

theorem tbGet_etab (m : List (String × List Row)) (k q : String) :
    tbGet (etab m k) q = tbGet m q := by
  unfold etab
  by_cases h : (List.lookup k m).isSome = true
  · rw [if_pos h]
  · rw [if_neg h]
    unfold tbGet
    simp only [lookup_append_ensure]
    cases hl : List.lookup q m with
    | some v => rfl
    | none =>
      by_cases hq : q = k
      · rw [if_pos hq]
        rfl
      · rw [if_neg hq]
        rfl

theorem lookup_etab_isSome {m : List (String × List Row)} {q : String}
    (h : (List.lookup q m).isSome = true) (k : String) :
    (List.lookup q (etab m k)).isSome = true := by
  unfold etab
  by_cases hk : (List.lookup k m).isSome = true
  · rw [if_pos hk]
    exact h
  · rw [if_neg hk]
    simp only [lookup_append_ensure]
    cases hl : List.lookup q m with
    | some v => rfl
    | none => rw [hl] at h; cases h

theorem lookup_etab_ne {m : List (String × List Row)} {q k : String} (h : q ≠ k) :
    List.lookup q (etab m k) = List.lookup q m := by
  unfold etab
  by_cases hk : (List.lookup k m).isSome = true
  · rw [if_pos hk]
  · rw [if_neg hk]
    rw [lookup_append_ensure, if_neg h]
    cases hl : List.lookup q m with
    | some v => rfl
    | none => rfl

theorem stampNs_chunk_id (ns : String) (r : Row) :
    (stampNs ns r).chunk_id = r.chunk_id := rfl

theorem chunkIds_map_stamp (ns : String) (l : List Row) :
    chunkIds (l.map (stampNs ns)) = chunkIds l := by
  unfold chunkIds
  rw [List.map_map]
  rfl

theorem lastOcc_map_stamp (ns : String) (l : List Row) (c : String) :
    lastOcc (l.map (stampNs ns)) c = (lastOcc l c).map (stampNs ns) := by
  induction l with
  | nil => rfl
  | cons v rest ih =>
    rw [List.map_cons, lastOcc_cons, lastOcc_cons, ih]
    cases hl : lastOcc rest c with
    | some w => rfl
    | none =>
      simp only [Option.map_none']
      by_cases hc : v.chunk_id = c
      · rw [if_pos (by rw [stampNs_chunk_id]; exact hc), if_pos hc]
        rfl
      · rw [if_neg (by rw [stampNs_chunk_id]; exact hc), if_neg hc]
        rfl

theorem DbState_eq {a b : DbState} (h1 : a.embeddings = b.embeddings)
    (h2 : a.tables = b.tables) : a = b := by
  cases a
  cases b
  cases h1
  cases h2
  rfl

theorem utp_eq_nocopy {ns : String} {copy : Bool} (items : List Row) (s : DbState)
    (hc : copyCondition ns copy = false) :
    upsert_to_postgres ns items copy s =
      { embeddings := upsertBatch s.embeddings (items.map (stampNs ns))
        tables := tbSet (etab s.tables (sanitizeNs ns)) (sanitizeNs ns)
          (upsertBatch (tbGet (etab s.tables (sanitizeNs ns)) (sanitizeNs ns))
            (items.map (stampNs ns))) } := by
  unfold upsert_to_postgres
  rw [if_neg (by simp [hc])]
  rfl

theorem utp_eq_copy {ns : String} {copy : Bool} (items : List Row) (s : DbState)
    (hc : copyCondition ns copy = true) :
    upsert_to_postgres ns items copy s =
      { embeddings := upsertBatch (upsertBatch s.embeddings (items.map (stampNs ns)))
          ((items.map (stampNs ns)).map (stampNs "general"))
        tables :=
          tbSet
            (etab (tbSet (etab s.tables (sanitizeNs ns)) (sanitizeNs ns)
              (upsertBatch (tbGet (etab s.tables (sanitizeNs ns)) (sanitizeNs ns))
                (items.map (stampNs ns)))) "general")
            "general"
            (upsertBatch
              (tbGet (etab (tbSet (etab s.tables (sanitizeNs ns)) (sanitizeNs ns)
                (upsertBatch (tbGet (etab s.tables (sanitizeNs ns)) (sanitizeNs ns))
                  (items.map (stampNs ns)))) "general") "general")
              ((items.map (stampNs ns)).map (stampNs "general"))) } := by
  unfold upsert_to_postgres
  rw [if_pos hc]
  rfl

/-- Replaying the same prepared batch through `_upsert_to_postgres` a
second time leaves the whole database state unchanged. -/
theorem utp_idem (ns : String) (items : List Row) (copy : Bool) (s : DbState) :
    upsert_to_postgres ns items copy (upsert_to_postgres ns items copy s)
      = upsert_to_postgres ns items copy s := by
  have hvg : ∀ c, c ∈ chunkIds (items.map (stampNs ns))
      ↔ c ∈ chunkIds ((items.map (stampNs ns)).map (stampNs "general")) := by
    intro c
    simp only [chunkIds_map_stamp]
  by_cases hc : copyCondition ns copy = true
  · rw [utp_eq_copy items s hc, utp_eq_copy _ _ hc, DbState.mk.injEq]
    constructor
    · exact upsertBatch_alt s.embeddings _ _ hvg
    · generalize etab s.tables (sanitizeNs ns) = m1
      generalize hA : upsertBatch (tbGet m1 (sanitizeNs ns)) (items.map (stampNs ns)) = A
      generalize hM2 : tbSet m1 (sanitizeNs ns) A = M2
      generalize hE2 : etab M2 "general" = E2
      generalize hC : upsertBatch (tbGet E2 "general")
        ((items.map (stampNs ns)).map (stampNs "general")) = C
      generalize hM4 : tbSet E2 "general" C = M4
      have hkM4some : (List.lookup (sanitizeNs ns) M4).isSome = true := by
        by_cases hk : sanitizeNs ns = "general"
        · rw [hk, ← hM4, lookup_tbSet_self]
          rfl
        · rw [← hM4, lookup_tbSet_ne _ hk, ← hE2, lookup_etab_ne hk, ← hM2,
            lookup_tbSet_self]
          rfl
      rw [etab_eq_of_isSome hkM4some]
      by_cases hk : sanitizeNs ns = "general"
      · rw [hk] at hA hM2 ⊢
        have hsome2 : (List.lookup "general" M2).isSome = true := by
          rw [← hM2, lookup_tbSet_self]
          rfl
        have hE2M2 : E2 = M2 := by
          rw [← hE2]
          exact etab_eq_of_isSome hsome2
        have htgM4 : tbGet M4 "general" = C := by
          rw [← hM4, tbGet_tbSet_self]
        rw [htgM4]
        have hsome3 : (List.lookup "general" (tbSet M4 "general"
            (upsertBatch C (items.map (stampNs ns))))).isSome = true := by
          rw [lookup_tbSet_self]
          rfl
        rw [etab_eq_of_isSome hsome3, tbGet_tbSet_self, tbSet_tbSet]
        have htgM2 : tbGet M2 "general" = A := by
          rw [← hM2, tbGet_tbSet_self]
        have hCeq : C = upsertBatch A ((items.map (stampNs ns)).map (stampNs "general")) := by
          rw [← hC, hE2M2, htgM2]
        have hfour : upsertBatch (upsertBatch C (items.map (stampNs ns)))
            ((items.map (stampNs ns)).map (stampNs "general")) = C := by
          rw [hCeq, ← hA]
          exact upsertBatch_alt (tbGet m1 "general") _ _ hvg
        rw [hfour, ← hM4, tbSet_tbSet]
      · have htgM4k : tbGet M4 (sanitizeNs ns) = A := by
          rw [← hM4, tbGet_tbSet_ne _ hk, ← hE2, tbGet_etab, ← hM2, tbGet_tbSet_self]
        rw [htgM4k]
        have hBAv : upsertBatch A (items.map (stampNs ns)) = A := by
          rw [← hA, upsertBatch_idem]
        rw [hBAv]
        have hlkM4 : List.lookup (sanitizeNs ns) M4 = some A := by
          rw [← hM4, lookup_tbSet_ne _ hk, ← hE2, lookup_etab_ne hk, ← hM2,
            lookup_tbSet_self]
        rw [tbSet_eq_of_lookup hlkM4]
        have hsome4 : (List.lookup "general" M4).isSome = true := by
          rw [← hM4, lookup_tbSet_self]
          rfl
        rw [etab_eq_of_isSome hsome4]
        have htgG : tbGet M4 "general" = C := by
          rw [← hM4, tbGet_tbSet_self]
        rw [htgG]
        have hCC : upsertBatch C ((items.map (stampNs ns)).map (stampNs "general")) = C := by
          rw [← hC, upsertBatch_idem]
        rw [hCC, ← hM4, tbSet_tbSet]
  · have hcf : copyCondition ns copy = false := by
      cases h : copyCondition ns copy
      · rfl
      · exact absurd h hc
    rw [utp_eq_nocopy items s hcf, utp_eq_nocopy _ _ hcf, DbState.mk.injEq]
    constructor
    · exact upsertBatch_idem s.embeddings _
    · generalize etab s.tables (sanitizeNs ns) = m1
      generalize hA : upsertBatch (tbGet m1 (sanitizeNs ns)) (items.map (stampNs ns)) = A
      generalize hM2 : tbSet m1 (sanitizeNs ns) A = M2
      have hsome : (List.lookup (sanitizeNs ns) M2).isSome = true := by
        rw [← hM2, lookup_tbSet_self]
        rfl
      rw [etab_eq_of_isSome hsome]
      have htg : tbGet M2 (sanitizeNs ns) = A := by
        rw [← hM2, tbGet_tbSet_self]
      rw [htg]
      have hBA : upsertBatch A (items.map (stampNs ns)) = A := by
        rw [← hA, upsertBatch_idem]
      rw [hBA]
      have hlk : List.lookup (sanitizeNs ns) M2 = some A := by
        rw [← hM2, lookup_tbSet_self]
      rw [tbSet_eq_of_lookup hlk]

theorem DbState_embeddings_mk (e : List Row) (t : List (String × List Row)) :
    (DbState.mk e t).embeddings = e := rfl

theorem DbState_tables_mk (e : List Row) (t : List (String × List Row)) :
    (DbState.mk e t).tables = t := rfl

theorem utp_embeddings_nocopy {ns : String} {copy : Bool} (items : List Row)
    (s : DbState) (hc : copyCondition ns copy = false) :
    (upsert_to_postgres ns items copy s).embeddings
      = upsertBatch s.embeddings (items.map (stampNs ns)) := by
  rw [utp_eq_nocopy items s hc, DbState_embeddings_mk]

theorem utp_embeddings_copy {ns : String} {copy : Bool} (items : List Row)
    (s : DbState) (hc : copyCondition ns copy = true) :
    (upsert_to_postgres ns items copy s).embeddings
      = upsertBatch (upsertBatch s.embeddings (items.map (stampNs ns)))
          ((items.map (stampNs ns)).map (stampNs "general")) := by
  rw [utp_eq_copy items s hc, DbState_embeddings_mk]

theorem utp_tbGet_ns_nocopy {ns : String} {copy : Bool} (items : List Row)
    (s : DbState) (hc : copyCondition ns copy = false) :
    tbGet (upsert_to_postgres ns items copy s).tables (sanitizeNs ns)
      = upsertBatch (tbGet s.tables (sanitizeNs ns)) (items.map (stampNs ns)) := by
  rw [utp_eq_nocopy items s hc, DbState_tables_mk, tbGet_tbSet_self, tbGet_etab]

theorem utp_tbGet_other_nocopy {ns : String} {copy : Bool} (items : List Row)
    (s : DbState) (hc : copyCondition ns copy = false) {q : String}
    (hq : q ≠ sanitizeNs ns) :
    tbGet (upsert_to_postgres ns items copy s).tables q = tbGet s.tables q := by
  rw [utp_eq_nocopy items s hc, DbState_tables_mk, tbGet_tbSet_ne _ hq, tbGet_etab]

theorem utp_tbGet_ns_copy {ns : String} {copy : Bool} (items : List Row)
    (s : DbState) (hc : copyCondition ns copy = true)
    (hne : sanitizeNs ns ≠ "general") :
    tbGet (upsert_to_postgres ns items copy s).tables (sanitizeNs ns)
      = upsertBatch (tbGet s.tables (sanitizeNs ns)) (items.map (stampNs ns)) := by
  rw [utp_eq_copy items s hc, DbState_tables_mk, tbGet_tbSet_ne _ hne, tbGet_etab,
    tbGet_tbSet_self, tbGet_etab]

theorem utp_tbGet_general_copy_ne {ns : String} {copy : Bool} (items : List Row)
    (s : DbState) (hc : copyCondition ns copy = true)
    (hne : sanitizeNs ns ≠ "general") :
    tbGet (upsert_to_postgres ns items copy s).tables "general"
      = upsertBatch (tbGet s.tables "general")
          ((items.map (stampNs ns)).map (stampNs "general")) := by
  rw [utp_eq_copy items s hc, DbState_tables_mk, tbGet_tbSet_self, tbGet_etab,
    tbGet_tbSet_ne _ (fun h => hne h.symm), tbGet_etab]

theorem utp_tbGet_general_copy_eq {ns : String} {copy : Bool} (items : List Row)
    (s : DbState) (hc : copyCondition ns copy = true)
    (heq : sanitizeNs ns = "general") :
    tbGet (upsert_to_postgres ns items copy s).tables "general"
      = upsertBatch
          (upsertBatch (tbGet s.tables "general") (items.map (stampNs ns)))
          ((items.map (stampNs ns)).map (stampNs "general")) := by
  rw [utp_eq_copy items s hc, DbState_tables_mk, tbGet_tbSet_self, tbGet_etab, heq,
    tbGet_tbSet_self, tbGet_etab]

theorem utp_tbGet_other_copy {ns : String} {copy : Bool} (items : List Row)
    (s : DbState) (hc : copyCondition ns copy = true) {q : String}
    (hq1 : q ≠ sanitizeNs ns) (hq2 : q ≠ "general") :
    tbGet (upsert_to_postgres ns items copy s).tables q = tbGet s.tables q := by
  rw [utp_eq_copy items s hc, DbState_tables_mk, tbGet_tbSet_ne _ hq2, tbGet_etab,
    tbGet_tbSet_ne _ hq1, tbGet_etab]

theorem idxFrom_map_snd {α : Type} (n : Nat) (l : List α) :
    (idxFrom n l).map Prod.snd = l := by
  induction l generalizing n with
  | nil => rfl
  | cons a as ih => simp [idxFrom, ih]

theorem idxFrom_fst_ge {α : Type} {n : Nat} {l : List α} {p : Nat × α}
    (h : p ∈ idxFrom n l) : n ≤ p.1 := by
  induction l generalizing n with
  | nil => simp [idxFrom] at h
  | cons a as ih =>
    rcases List.mem_cons.1 h with h | h
    · rw [h]
    · exact Nat.le_of_succ_le (ih h)

theorem idxFrom_snd_mem {α : Type} {n : Nat} {l : List α} {p : Nat × α}
    (h : p ∈ idxFrom n l) : p.2 ∈ l := by
  induction l generalizing n with
  | nil => simp [idxFrom] at h
  | cons a as ih =>
    rcases List.mem_cons.1 h with h | h
    · rw [h]; exact List.mem_cons_self _ _
    · exact List.mem_cons_of_mem _ (ih h)

theorem idxFrom_fst_pairwise {α : Type} (n : Nat) (l : List α) :
    (idxFrom n l).Pairwise (fun p q => p.1 ≠ q.1) := by
  induction l generalizing n with
  | nil => exact List.Pairwise.nil
  | cons a as ih =>
    apply List.Pairwise.cons
    · intro q hq
      have := idxFrom_fst_ge hq
      omega
    · exact ih (n + 1)

theorem idxFrom_inj {α : Type} {n i : Nat} {l : List α} {a b : α}
    (ha : (i, a) ∈ idxFrom n l) (hb : (i, b) ∈ idxFrom n l) : a = b := by
  induction l generalizing n with
  | nil => simp [idxFrom] at ha
  | cons x xs ih =>
    rcases List.mem_cons.1 ha with ha' | ha' <;> rcases List.mem_cons.1 hb with hb' | hb'
    · rw [Prod.mk.injEq] at ha' hb'
      rw [ha'.2, hb'.2]
    · exfalso
      have := idxFrom_fst_ge hb'
      rw [Prod.mk.injEq] at ha'
      omega
    · exfalso
      have := idxFrom_fst_ge ha'
      rw [Prod.mk.injEq] at hb'
      omega
    · exact ih ha' hb'

theorem mem_idxFrom_of_mem {α : Type} {l : List α} {x : α} (h : x ∈ l) (n : Nat) :
    ∃ i, (i, x) ∈ idxFrom n l := by
  induction l generalizing n with
  | nil => simp at h
  | cons a as ih =>
    rcases List.mem_cons.1 h with h | h
    · exact ⟨n, by rw [h]; exact List.mem_cons_self _ _⟩
    · rcases ih h (n + 1) with ⟨i, hi⟩
      exact ⟨i, List.mem_cons_of_mem _ hi⟩

theorem idxFrom_getElem? {α : Type} (n : Nat) (l : List α) (i : Nat) :
    (idxFrom n l)[i]? = l[i]?.map (fun a => (n + i, a)) := by
  induction l generalizing n i with
  | nil => simp [idxFrom]
  | cons a as ih =>
    cases i with
    | zero => simp [idxFrom]
    | succ i =>
      simp only [idxFrom, List.getElem?_cons_succ, ih (n + 1) i]
      have : n + 1 + i = n + (i + 1) := by omega
      rw [this]

theorem beatsP_total {a b : SRow} {i j : Nat} (h : i ≠ j) :
    beatsP a i b j ∨ beatsP b j a i := by
  unfold beatsP
  rcases Nat.lt_trichotomy a.created_at b.created_at with hlt | heq | hgt
  · exact Or.inr (Or.inl hlt)
  · rcases Nat.lt_or_ge i j with hij | hij
    · exact Or.inr (Or.inr ⟨heq.symm, hij⟩)
    · exact Or.inl (Or.inr ⟨heq, Nat.lt_of_le_of_ne hij (fun he => h he.symm)⟩)
  · exact Or.inl (Or.inl hgt)

theorem beatsP_asymm {a b : SRow} {i j : Nat}
    (h1 : beatsP a i b j) (h2 : beatsP b j a i) : False := by
  unfold beatsP at h1 h2
  rcases h1 with h1 | ⟨he1, h1⟩ <;> rcases h2 with h2 | ⟨he2, h2⟩ <;> omega

theorem beatsP_trans {a b c : SRow} {i j k : Nat}
    (h1 : beatsP a i b j) (h2 : beatsP b j c k) : beatsP a i c k := by
  unfold beatsP at h1 h2 ⊢
  rcases h1 with h1 | ⟨he1, h1⟩ <;> rcases h2 with h2 | ⟨he2, h2⟩
  · exact Or.inl (Nat.lt_trans h2 h1)
  · exact Or.inl (he2 ▸ h1)
  · exact Or.inl (he1 ▸ h2)
  · exact Or.inr ⟨he1.trans he2, Nat.lt_trans h2 h1⟩

/-- In a list with pairwise-distinct positions, the position determines
the element. -/
theorem eq_of_fst_eq_of_pairwise {l : List (Nat × SRow)}
    (hpw : l.Pairwise (fun p q => p.1 ≠ q.1)) {a b : Nat × SRow}
    (ha : a ∈ l) (hb : b ∈ l) (h : a.1 = b.1) : a = b := by
  by_cases hab : a = b
  · exact hab
  · have hsym : Symmetric (fun p q : Nat × SRow => p.1 ≠ q.1) :=
      fun p q hpq he => hpq he.symm
    exact absurd h (hpw.forall hsym ha hb hab)

/-- Every nonempty group of position-distinct rows has a row that ranks
strictly before all the others. -/
theorem winner_of_group :
    ∀ (l : List (Nat × SRow)), l ≠ [] → l.Pairwise (fun p q => p.1 ≠ q.1) →
    ∃ p ∈ l, ∀ q ∈ l, q.1 ≠ p.1 → beatsP p.2 p.1 q.2 q.1 := by
  intro l
  induction l with
  | nil => intro h; exact absurd rfl h
  | cons x rest ih =>
    intro _ hpw
    rcases List.pairwise_cons.1 hpw with ⟨hx, hrest⟩
    by_cases hr : rest = []
    · refine ⟨x, List.mem_cons_self _ _, ?_⟩
      intro q hq hne
      rcases List.mem_cons.1 hq with hq | hq
      · exact absurd (hq ▸ rfl) hne
      · rw [hr] at hq
        simp at hq
    · rcases ih hr hrest with ⟨p, hp, hbest⟩
      have hxp : x.1 ≠ p.1 := hx p hp
      rcases beatsP_total hxp with hxbeats | hpbeats
      · refine ⟨x, List.mem_cons_self _ _, ?_⟩
        intro q hq hne
        rcases List.mem_cons.1 hq with hq | hq
        · exact absurd (hq ▸ rfl) hne
        · by_cases hqp : q = p
          · rw [hqp]
            exact hxbeats
          · have hqp1 : q.1 ≠ p.1 := by
              intro he
              exact hqp (eq_of_fst_eq_of_pairwise hrest hq hp he)
            exact beatsP_trans hxbeats (hbest q hq hqp1)
      · refine ⟨p, List.mem_cons_of_mem _ hp, ?_⟩
        intro q hq hne
        rcases List.mem_cons.1 hq with hq | hq
        · rw [hq]
          exact hpbeats
        · exact hbest q hq hne

theorem filter_eq_singleton {α : Type} {l : List α} {p : α → Bool} {w : α}
    (hnd : l.Nodup) (hw : w ∈ l) (hpw : p w = true)
    (hothers : ∀ q ∈ l, q ≠ w → p q = false) : l.filter p = [w] := by
  induction l with
  | nil => simp at hw
  | cons a rest ih =>
    rcases List.nodup_cons.1 hnd with ⟨han, hrest⟩
    rcases List.mem_cons.1 hw with hw' | hw'
    · subst hw'
      rw [List.filter_cons_of_pos hpw]
      have hnil : rest.filter p = [] := by
        apply List.filter_eq_nil_iff.2
        intro q hq
        have hqw : q ≠ w := fun he => han (he ▸ hq)
        simp [hothers q (List.mem_cons_of_mem _ hq) hqw]
      rw [hnil]
    · have haw : a ≠ w := fun he => han (he ▸ hw')
      rw [List.filter_cons_of_neg (by simp [hothers a (List.mem_cons_self _ _) haw])]
      exact ih hrest hw' (fun q hq hne => hothers q (List.mem_cons_of_mem _ hq) hne)

theorem two_le_length_of_mem_ne {α : Type} [DecidableEq α] {l : List α} {a b : α}
    (ha : a ∈ l) (hb : b ∈ l) (hne : a ≠ b) : 2 ≤ l.length := by
  have hb' : b ∈ l.erase a := (List.mem_erase_of_ne (fun h => hne h.symm)).2 hb
  have h1 : 0 < (l.erase a).length := List.length_pos_of_mem hb'
  have h2 : (l.erase a).length = l.length - 1 := List.length_erase_of_mem ha
  omega

/-- Rank one in the ranking CTE is equivalent to ranking strictly before
every other row of the same chunk_id partition. -/
theorem isWinner_iff_group {t : List SRow} {c : String} {p : Nat × SRow}
    (hp : p ∈ (idxFrom 0 t).filter (fun q => q.2.row.chunk_id == c)) :
    isWinner t p.1 p.2 = true
      ↔ ∀ q ∈ (idxFrom 0 t).filter (fun q => q.2.row.chunk_id == c),
          q.1 ≠ p.1 → beatsP p.2 p.1 q.2 q.1 := by
  obtain ⟨hpidx, hpc⟩ := List.mem_filter.1 hp
  rw [beq_iff_eq] at hpc
  unfold isWinner
  rw [List.all_eq_true]
  constructor
  · intro hall q hq hne
    obtain ⟨hqidx, hqc⟩ := List.mem_filter.1 hq
    rw [beq_iff_eq] at hqc
    have hthis := hall q hqidx
    simp only [Bool.or_eq_true, Bool.not_eq_true', beq_eq_false_iff_ne, beq_iff_eq,
      decide_eq_true_eq] at hthis
    rcases hthis with (h | h) | h
    · exact absurd (hqc.trans hpc.symm) h
    · exact absurd h hne
    · exact h
  · intro hbest q hqidx
    simp only [Bool.or_eq_true, Bool.not_eq_true', beq_eq_false_iff_ne, beq_iff_eq,
      decide_eq_true_eq]
    by_cases hqc : q.2.row.chunk_id = p.2.row.chunk_id
    · by_cases hq1 : q.1 = p.1
      · exact Or.inl (Or.inr hq1)
      · refine Or.inr (hbest q ?_ hq1)
        exact List.mem_filter.2 ⟨hqidx, by rw [beq_iff_eq]; exact hqc.trans hpc⟩
    · exact Or.inl (Or.inl hqc)

theorem dedupe_filter_eq (t : List SRow) (pr : SRow → Bool) :
    (deduplicate_chunk_id t).filter pr
      = ((idxFrom 0 t).filter (fun p => pr p.2 && isWinner t p.1 p.2)).map Prod.snd := by
  unfold deduplicate_chunk_id
  rw [List.filter_map, List.filter_filter]
  rfl

theorem filter_idxFrom_map_snd (t : List SRow) (pr : SRow → Bool) (n : Nat) :
    ((idxFrom n t).filter (fun p => pr p.2)).map Prod.snd = t.filter pr := by
  conv_rhs => rw [← idxFrom_map_snd n t]
  rw [List.filter_map]
  rfl

/-- Claim C3: the Index Repair Protocol's deduplication step leaves
exactly one row per chunk_id — the row with the latest `created_at`, ties
broken by the physically later position — deletes only rows (survivors
keep table order), and keeps every row whose chunk_id was already
unique. -/
theorem c3_dedup_semantics (t : List SRow) :
    (∀ c, c ∈ t.map (fun x => x.row.chunk_id) →
      ((deduplicate_chunk_id t).filter (fun x => x.row.chunk_id == c)).length = 1)
    ∧ List.Sublist (deduplicate_chunk_id t) t
    ∧ (∀ x ∈ deduplicate_chunk_id t, ∃ i, (i, x) ∈ idxFrom 0 t ∧
        ∀ j y, (j, y) ∈ idxFrom 0 t → y.row.chunk_id = x.row.chunk_id → j ≠ i →
          beatsP x i y j)
    ∧ (∀ x ∈ t, (t.filter (fun y => y.row.chunk_id == x.row.chunk_id)).length = 1 →
        x ∈ deduplicate_chunk_id t) := by
  refine ⟨?_, ?_, ?_, ?_⟩
  · intro c hc
    rcases List.mem_map.1 hc with ⟨x, hx, hxc⟩
    rcases mem_idxFrom_of_mem hx 0 with ⟨i, hi⟩
    have hiG : (i, x) ∈ (idxFrom 0 t).filter (fun q => q.2.row.chunk_id == c) :=
      List.mem_filter.2 ⟨hi, by rw [beq_iff_eq]; exact hxc⟩
    have hGpw : ((idxFrom 0 t).filter (fun q => q.2.row.chunk_id == c)).Pairwise
        (fun p q => p.1 ≠ q.1) :=
      List.Pairwise.sublist (List.filter_sublist _) (idxFrom_fst_pairwise 0 t)
    have hGne : (idxFrom 0 t).filter (fun q => q.2.row.chunk_id == c) ≠ [] := by
      intro h
      rw [h] at hiG
      exact absurd hiG (List.not_mem_nil _)
    rcases winner_of_group _ hGne hGpw with ⟨w, hwG, hwbest⟩
    have hwWin : isWinner t w.1 w.2 = true := (isWinner_iff_group hwG).2 hwbest
    have hothers : ∀ q ∈ (idxFrom 0 t).filter (fun q => q.2.row.chunk_id == c),
        q ≠ w → isWinner t q.1 q.2 = false := by
      intro q hqG hqw
      have hq1 : q.1 ≠ w.1 := fun he => hqw (eq_of_fst_eq_of_pairwise hGpw hqG hwG he)
      cases hval : isWinner t q.1 q.2 with
      | false => rfl
      | true =>
        exfalso
        have hqbest := (isWinner_iff_group hqG).1 hval
        exact beatsP_asymm (hwbest q hqG hq1) (hqbest w hwG (fun he => hq1 he.symm))
    have hGnd : ((idxFrom 0 t).filter (fun q => q.2.row.chunk_id == c)).Nodup := by
      apply List.Pairwise.imp _ hGpw
      intro p q h
      exact fun he => h (congrArg Prod.fst he)
    have hfilterG : ((idxFrom 0 t).filter (fun q => q.2.row.chunk_id == c)).filter
        (fun p => isWinner t p.1 p.2) = [w] :=
      filter_eq_singleton hGnd hwG hwWin hothers
    rw [dedupe_filter_eq t (fun x => x.row.chunk_id == c)]
    have hcomb : (idxFrom 0 t).filter
        (fun p => (p.2.row.chunk_id == c) && isWinner t p.1 p.2)
        = ((idxFrom 0 t).filter (fun q => q.2.row.chunk_id == c)).filter
            (fun p => isWinner t p.1 p.2) := by
      rw [List.filter_filter]
      congr 1
      funext p
      rw [Bool.and_comm]
    rw [hcomb, hfilterG]
    rfl
  · unfold deduplicate_chunk_id
    have h1 : List.Sublist ((idxFrom 0 t).filter (fun p => isWinner t p.1 p.2))
        (idxFrom 0 t) := List.filter_sublist _
    have h2 := h1.map Prod.snd
    rw [idxFrom_map_snd] at h2
    exact h2
  · intro x hx
    unfold deduplicate_chunk_id at hx
    rcases List.mem_map.1 hx with ⟨p, hpf, hps⟩
    rcases List.mem_filter.1 hpf with ⟨hpidx, hpwin⟩
    refine ⟨p.1, ?_, ?_⟩
    · rw [← hps]
      exact hpidx
    · intro j y hj hyc hji
      have hpG : p ∈ (idxFrom 0 t).filter (fun q => q.2.row.chunk_id == x.row.chunk_id) :=
        List.mem_filter.2 ⟨hpidx, by rw [hps]; simp⟩
      have hbest := (isWinner_iff_group hpG).1 hpwin
      have hyG : (j, y) ∈ (idxFrom 0 t).filter
          (fun q => q.2.row.chunk_id == x.row.chunk_id) :=
        List.mem_filter.2 ⟨hj, by rw [beq_iff_eq]; exact hyc⟩
      have hb := hbest (j, y) hyG hji
      rw [← hps]
      exact hb
  · intro x hx hcount
    rcases mem_idxFrom_of_mem hx 0 with ⟨i, hi⟩
    have hwin : isWinner t i x = true := by
      unfold isWinner
      rw [List.all_eq_true]
      intro q hqidx
      simp only [Bool.or_eq_true, Bool.not_eq_true', beq_eq_false_iff_ne, beq_iff_eq,
        decide_eq_true_eq]
      by_cases hqc : q.2.row.chunk_id = x.row.chunk_id
      · by_cases hq1 : q.1 = i
        · exact Or.inl (Or.inr hq1)
        · exfalso
          have hxF : (i, x) ∈ (idxFrom 0 t).filter
              (fun p => p.2.row.chunk_id == x.row.chunk_id) :=
            List.mem_filter.2 ⟨hi, by simp⟩
          have hqF : q ∈ (idxFrom 0 t).filter
              (fun p => p.2.row.chunk_id == x.row.chunk_id) :=
            List.mem_filter.2 ⟨hqidx, by rw [beq_iff_eq]; exact hqc⟩
          have hne : q ≠ (i, x) := fun he => hq1 (by rw [he])
          have h2 : 2 ≤ ((idxFrom 0 t).filter
              (fun p => p.2.row.chunk_id == x.row.chunk_id)).length :=
            two_le_length_of_mem_ne hqF hxF hne
          have hlen : ((idxFrom 0 t).filter
              (fun p => p.2.row.chunk_id == x.row.chunk_id)).length
              = (t.filter (fun y => y.row.chunk_id == x.row.chunk_id)).length := by
            rw [← filter_idxFrom_map_snd t (fun y => y.row.chunk_id == x.row.chunk_id) 0,
              List.length_map]
          rw [hlen, hcount] at h2
          omega
      · exact Or.inl (Or.inl hqc)
    unfold deduplicate_chunk_id
    exact List.mem_map.2 ⟨(i, x), List.mem_filter.2 ⟨hi, hwin⟩, rfl⟩

theorem replayStore_converges (ns : String) (items : List Row) (copy : Bool) :
    ∀ (n : Nat) (s : DbState),
      replayStore ns items copy (n + 1) s = upsert_to_postgres ns items copy s := by
  intro n
  induction n with
  | zero => intro s; rfl
  | succ n ih =>
    intro s
    have step : replayStore ns items copy (n + 2) s
        = replayStore ns items copy (n + 1) (upsert_to_postgres ns items copy s) := rfl
    rw [step, ih, utp_idem]

/-- Claim C1 (amended): cross-table mirroring is preserved by any upsert
in which the general-copy step does not run — if every row of the
namespace table was present with identical field values in the global
table before the upsert, the same holds after.  (As stated, including
`copy_to_general = true`, the claim is false: see the counterexample.) -/
theorem c1_mirror_preserved (ns : String) (items : List Row) (copy : Bool)
    (s : DbState) (hnc : copyCondition ns copy = false) (hmir : mirrorNs s ns) :
    mirrorNs (upsert_to_postgres ns items copy s) ns := by
  unfold mirrorNs at hmir ⊢
  rw [utp_tbGet_ns_nocopy items s hnc, utp_embeddings_nocopy items s hnc]
  exact upsertBatch_preserves_mirror _ hmir

/-- Claim C1 counterexample: starting from the empty (perfectly
mirrored) state, a single successful upsert with `copy_to_general =
true` from namespace `alice` leaves a row in the `alice` table that is
present in the global table only with namespace `general` — the mirror
with identical field values is broken. -/
theorem c1_counterexample :
    mirrorNs emptyState "alice"
    ∧ copyCondition "alice" true = true
    ∧ ¬ mirrorNs (upsert_to_postgres "alice" [rowA] true emptyState) "alice" := by
  decide

theorem c1_witness :
    mirrorNs (upsert_to_postgres "alice" [rowA] false emptyState) "alice" :=
  c1_mirror_preserved "alice" [rowA] false emptyState (by decide) (by decide)

/-- Claim C2: upsert is idempotent — replaying an identical batch any
number of times converges to the same final row contents; each table
ends with exactly one row per chunk_id of the batch, carrying the
batch's last-occurrence values (insert-or-full-replace keyed by
chunk_id); and the whole store state is unchanged by a replay of the
same upsert call. -/
theorem c2_upsert_idempotent (t vs items : List Row) (ns : String) (copy : Bool)
    (s : DbState) (hn : (chunkIds t).Nodup) :
    (upsertBatch (upsertBatch t vs) vs = upsertBatch t vs)
    ∧ (∀ n : Nat, replayBatch vs (n + 1) t = upsertBatch t vs)
    ∧ (chunkIds (upsertBatch t vs)).Nodup
    ∧ (∀ c w, lastOcc vs c = some w →
        countById (upsertBatch t vs) c = 1 ∧ findRow (upsertBatch t vs) c = some w)
    ∧ (upsert_to_postgres ns items copy (upsert_to_postgres ns items copy s)
        = upsert_to_postgres ns items copy s)
    ∧ (∀ n : Nat, replayStore ns items copy (n + 1) s
        = upsert_to_postgres ns items copy s) := by
  refine ⟨upsertBatch_idem t vs, fun n => replayBatch_converges vs n t,
    nodup_chunkIds_upsertBatch hn, ?_, utp_idem ns items copy s,
    fun n => replayStore_converges ns items copy n s⟩
  intro c w hl
  constructor
  · apply countById_eq_one (nodup_chunkIds_upsertBatch hn)
    exact mem_chunkIds_upsertBatch.2 (Or.inr (lastOcc_isSome_iff.1 (by simp [hl])))
  · rw [findRow_upsertBatch, hl]
    rfl

theorem c2_witness :
    upsertBatch (upsertBatch [] [rowA]) [rowA] = upsertBatch [] [rowA] :=
  (c2_upsert_idempotent [] [rowA] [rowA] "alice" false emptyState (by decide)).1

theorem c3_witness :
    ((deduplicate_chunk_id [srOld, srNew]).filter (fun x => x.row.chunk_id == "c1")).length
      = 1 :=
  (c3_dedup_semantics [srOld, srNew]).1 "c1" (by decide)

/-- Claim C4: the Index Repair Protocol first attempts index creation;
on failure it deduplicates and retries exactly once; a first-attempt
success performs no deduplication; a failure of the deduplication or of
the retried creation is raised to the caller (the inner error), and a
successful retry is invisible to the caller. -/
theorem c4_repair_protocol (c1 d c2 : Except String Unit) :
    (c1 = Except.ok () →
      ensure_unique_index c1 d c2 = (Except.ok (), [RepairOp.createIdx]))
    ∧ (((ensure_unique_index c1 d c2).2.filter (fun o => o == RepairOp.createIdx)).length ≤ 2)
    ∧ (RepairOp.dedupRows ∈ (ensure_unique_index c1 d c2).2 ↔ ∃ e, c1 = Except.error e)
    ∧ (∀ e, c1 = Except.error e → d = Except.ok () →
        (ensure_unique_index c1 d c2).2
          = [RepairOp.createIdx, RepairOp.dedupRows, RepairOp.createIdx])
    ∧ (∀ e e2, c1 = Except.error e → d = Except.error e2 →
        ensure_unique_index c1 d c2
          = (Except.error e2, [RepairOp.createIdx, RepairOp.dedupRows]))
    ∧ (∀ e e2, c1 = Except.error e → d = Except.ok () → c2 = Except.error e2 →
        (ensure_unique_index c1 d c2).1 = Except.error e2)
    ∧ (∀ e, c1 = Except.error e → d = Except.ok () → c2 = Except.ok () →
        (ensure_unique_index c1 d c2).1 = Except.ok ()) := by
  cases c1 with
  | ok u =>
    cases u
    refine ⟨fun _ => rfl, ?_, ?_, ?_, ?_, ?_, ?_⟩ <;> simp [ensure_unique_index]
  | error e1 =>
    cases d with
    | error e2 =>
      refine ⟨?_, ?_, ?_, ?_, ?_, ?_, ?_⟩ <;> simp [ensure_unique_index]
    | ok u =>
      cases u
      cases c2 with
      | ok u2 =>
        cases u2
        refine ⟨?_, ?_, ?_, ?_, ?_, ?_, ?_⟩ <;> simp [ensure_unique_index]
      | error e3 =>
        refine ⟨?_, ?_, ?_, ?_, ?_, ?_, ?_⟩ <;> simp [ensure_unique_index]

theorem c4_witness :
    (ensure_unique_index (Except.error "duplicate key") (Except.ok ())
      (Except.ok ())).2
      = [RepairOp.createIdx, RepairOp.dedupRows, RepairOp.createIdx] :=
  (c4_repair_protocol (Except.error "duplicate key") (Except.ok ())
    (Except.ok ())).2.2.2.1 "duplicate key" rfl rfl

/-- Claim C5 (amended): the namespace-rewritten copy (namespace replaced
by `general`) is additionally written to the global table and the
`general` table iff `copy_to_general` holds, the namespace is not
`general`, and the namespace does not contain the exempt marker; with
the copy step not running, the `general` table is untouched unless the
issuing namespace's own sanitized table is the `general` table itself,
in which case only the ordinary namespace-table write lands there.
(As stated — "no rows are ever written to the 'general' table from
namespace 'general'" — the claim is false: see the counterexample.) -/
theorem c5_copy_to_general (ns : String) (items : List Row) (copy : Bool) (s : DbState) :
    (copyCondition ns copy = true ↔
      copy = true ∧ ns ≠ "general" ∧ exemptNs ns = false)
    ∧ (copyCondition ns copy = true →
        ∀ c w, lastOcc (items.map (stampNs ns)) c = some w →
          findRow (tbGet (upsert_to_postgres ns items copy s).tables "general") c
            = some (stampNs "general" w)
          ∧ findRow (upsert_to_postgres ns items copy s).embeddings c
            = some (stampNs "general" w))
    ∧ (copyCondition ns copy = false → sanitizeNs ns ≠ "general" →
        tbGet (upsert_to_postgres ns items copy s).tables "general"
          = tbGet s.tables "general")
    ∧ (copyCondition ns copy = false → sanitizeNs ns = "general" →
        tbGet (upsert_to_postgres ns items copy s).tables "general"
          = upsertBatch (tbGet s.tables "general") (items.map (stampNs ns))) := by
  refine ⟨?_, ?_, ?_, ?_⟩
  · unfold copyCondition
    simp only [Bool.and_eq_true, Bool.not_eq_true', beq_eq_false_iff_ne]
    constructor
    · rintro ⟨⟨h1, h2⟩, h3⟩
      exact ⟨h1, h2, h3⟩
    · rintro ⟨h1, h2, h3⟩
      exact ⟨⟨h1, h2⟩, h3⟩
  · intro hcopy c w hl
    have hfind : ∀ X : List Row,
        findRow (upsertBatch X ((items.map (stampNs ns)).map (stampNs "general"))) c
          = some (stampNs "general" w) := by
      intro X
      rw [findRow_upsertBatch, lastOcc_map_stamp, hl]
      rfl
    constructor
    · by_cases hsan : sanitizeNs ns = "general"
      · rw [utp_tbGet_general_copy_eq items s hcopy hsan]
        exact hfind _
      · rw [utp_tbGet_general_copy_ne items s hcopy hsan]
        exact hfind _
    · rw [utp_embeddings_copy items s hcopy]
      exact hfind _
  · intro hnc hne
    exact utp_tbGet_other_nocopy items s hnc (fun h => hne h.symm)
  · intro hnc hsan
    rw [← hsan, utp_tbGet_ns_nocopy items s hnc, hsan]

/-- Claim C5 counterexample: an upsert issued from namespace `general`
with `copy_to_general = false` — so the copy step does not run — still
writes its rows into the `general` namespace table, because that table
is the namespace's own table. -/
theorem c5_counterexample :
    copyCondition "general" false = false
    ∧ tbGet (upsert_to_postgres "general" [rowG] false emptyState).tables "general"
        = [stampNs "general" rowG] := by
  decide

theorem c5_witness :
    findRow (tbGet (upsert_to_postgres "alice" [rowA] true emptyState).tables "general")
      "c1" = some (stampNs "general" (stampNs "alice" rowA)) :=
  ((c5_copy_to_general "alice" [rowA] true emptyState).2.1 (by decide) "c1"
    (stampNs "alice" rowA) (by decide)).1

/-- Claim C6: `similarity_search` returns at most `k` rows, drawn from
the global table restricted to the store's namespace (and to the
file_id filter, or to the source filter when no file_id filter is
given), ordered by distance to the query embedding ascending, with each
reported similarity equal to `1 -` the row's distance, so the reported
similarities are monotonically non-increasing. -/
theorem c6_similarity_search (dist : List Rat → Rat) (k : Nat) (ns : String)
    (ffid fsrc : Option String) (tbl : List Row) :
    (similarity_search dist k ns ffid fsrc tbl).length ≤ k
    ∧ (∀ p ∈ similarity_search dist k ns ffid fsrc tbl,
        p.1 ∈ tbl ∧ p.1.namespace_ = ns ∧ p.2 = 1 - dist p.1.embedding)
    ∧ (∀ f, ffid = some f → f ≠ "" →
        ∀ p ∈ similarity_search dist k ns ffid fsrc tbl, p.1.file_id = f)
    ∧ (∀ sv, ffid = none → fsrc = some sv → sv ≠ "" →
        ∀ p ∈ similarity_search dist k ns ffid fsrc tbl, p.1.source = sv)
    ∧ List.Pairwise (fun p q : Row × Rat => dist p.1.embedding ≤ dist q.1.embedding)
        (similarity_search dist k ns ffid fsrc tbl)
    ∧ List.Pairwise (fun p q : Row × Rat => q.2 ≤ p.2)
        (similarity_search dist k ns ffid fsrc tbl) := by
  have hmem : ∀ p ∈ similarity_search dist k ns ffid fsrc tbl,
      p.1 ∈ tbl ∧ whereFilter ns ffid fsrc p.1 = true ∧ p.2 = 1 - dist p.1.embedding := by
    intro p hp
    unfold similarity_search at hp
    rcases List.mem_map.1 hp with ⟨r, hr, hpr⟩
    have hrs : r ∈ (tbl.filter (whereFilter ns ffid fsrc)).insertionSort
        (fun a b => dist a.embedding ≤ dist b.embedding) :=
      (List.take_sublist _ _).subset hr
    rw [List.mem_insertionSort] at hrs
    rcases List.mem_filter.1 hrs with ⟨hrt, hrw⟩
    rw [← hpr]
    exact ⟨hrt, hrw, rfl⟩
  have hsorted : List.Pairwise
      (fun p q : Row × Rat => dist p.1.embedding ≤ dist q.1.embedding)
      (similarity_search dist k ns ffid fsrc tbl) := by
    unfold similarity_search
    rw [List.pairwise_map]
    apply List.Pairwise.sublist (List.take_sublist _ _)
    haveI h1 : IsTotal Row (fun a b => dist a.embedding ≤ dist b.embedding) :=
      ⟨fun a b => le_total _ _⟩
    haveI h2 : IsTrans Row (fun a b => dist a.embedding ≤ dist b.embedding) :=
      ⟨fun a b c hab hbc => le_trans hab hbc⟩
    exact List.sorted_insertionSort _ _
  refine ⟨?_, ?_, ?_, ?_, hsorted, ?_⟩
  · unfold similarity_search
    rw [List.length_map, List.length_take]
    exact min_le_left _ _
  · intro p hp
    obtain ⟨h1, h2, h3⟩ := hmem p hp
    refine ⟨h1, ?_, h3⟩
    unfold whereFilter at h2
    simp only [Bool.and_eq_true, beq_iff_eq] at h2
    exact h2.1
  · intro f hf hfne p hp
    obtain ⟨_, h2, _⟩ := hmem p hp
    unfold whereFilter at h2
    rw [hf] at h2
    have ht : truthyS (some f) = true := by
      simp [truthyS, hfne]
    rw [ht] at h2
    simp only [if_true, Bool.and_eq_true, beq_iff_eq] at h2
    exact h2.2
  · intro sv hff hfs hsne p hp
    obtain ⟨_, h2, _⟩ := hmem p hp
    unfold whereFilter at h2
    rw [hff, hfs] at h2
    simp [truthyS, hsne] at h2
    exact h2.2
  · apply List.Pairwise.imp_of_mem ?_ hsorted
    intro p q hp hq h
    rw [(hmem p hp).2.2, (hmem q hq).2.2]
    exact sub_le_sub_left h 1

theorem c6_witness : rowA.file_id = "f1" := by
  refine (c6_similarity_search (fun e => e.headD 0) 2 "alice" (some "f1") none [rowA]).2.2.1
    "f1" rfl (by decide) (rowA, 1 - (fun e : List Rat => e.headD 0) rowA.embedding) ?_
  simp [similarity_search, whereFilter, truthyS, rowA, List.insertionSort, List.orderedInsert]

/-- Claim C7: `delete_by_chunk_ids` removes from the global table every
row whose chunk_id is in the list, with no namespace predicate; removes
matching rows from the issuing namespace's own table; and leaves every
other row — and every other namespace's table — entirely unchanged
(survivors keep their order and values). -/
theorem c7_delete_by_chunk_ids (ids : List String) (ns : String) (s : DbState) :
    (∀ r, r ∈ (delete_by_chunk_ids ids ns s).embeddings
        ↔ r ∈ s.embeddings ∧ ¬ r.chunk_id ∈ ids)
    ∧ List.Sublist (delete_by_chunk_ids ids ns s).embeddings s.embeddings
    ∧ (∀ r, r ∈ tbGet (delete_by_chunk_ids ids ns s).tables (sanitizeNs ns)
        ↔ r ∈ tbGet s.tables (sanitizeNs ns) ∧ ¬ r.chunk_id ∈ ids)
    ∧ List.Sublist (tbGet (delete_by_chunk_ids ids ns s).tables (sanitizeNs ns))
        (tbGet s.tables (sanitizeNs ns))
    ∧ (∀ q, q ≠ sanitizeNs ns →
        tbGet (delete_by_chunk_ids ids ns s).tables q = tbGet s.tables q) := by
  refine ⟨?_, ?_, ?_, ?_, ?_⟩
  · intro r
    unfold delete_by_chunk_ids
    rw [DbState_embeddings_mk]
    simp [List.mem_filter]
  · unfold delete_by_chunk_ids
    rw [DbState_embeddings_mk]
    exact List.filter_sublist _
  · intro r
    unfold delete_by_chunk_ids
    rw [DbState_tables_mk, tbGet_tbSet_self]
    simp [List.mem_filter]
  · unfold delete_by_chunk_ids
    rw [DbState_tables_mk, tbGet_tbSet_self]
    exact List.filter_sublist _
  · intro q hq
    unfold delete_by_chunk_ids
    rw [DbState_tables_mk, tbGet_tbSet_ne _ hq]

theorem c7_witness :
    tbGet (delete_by_chunk_ids ["zz"] "alice" stateA).tables "bob"
      = tbGet stateA.tables "bob" :=
  (c7_delete_by_chunk_ids ["zz"] "alice" stateA).2.2.2.2 "bob" (by decide)

/-- Claim C8: `count_by_file_id` returns the count of global-table rows
matching the namespace and file_id; only when that count is zero and the
identifier contains a path separator does it instead return the count of
rows matching the namespace and the identifier as legacy source. -/
theorem c8_count_by_file_id (tbl : List Row) (ns fid : String) :
    ((tbl.filter (fun r => r.namespace_ == ns && r.file_id == fid)).length ≠ 0 →
      count_by_file_id tbl ns fid
        = (tbl.filter (fun r => r.namespace_ == ns && r.file_id == fid)).length)
    ∧ (hasPathSep fid = false →
      count_by_file_id tbl ns fid
        = (tbl.filter (fun r => r.namespace_ == ns && r.file_id == fid)).length)
    ∧ ((tbl.filter (fun r => r.namespace_ == ns && r.file_id == fid)).length = 0 →
      hasPathSep fid = true →
      count_by_file_id tbl ns fid
        = (tbl.filter (fun r => r.namespace_ == ns && r.source == fid)).length) := by
  unfold count_by_file_id
  refine ⟨?_, ?_, ?_⟩
  · intro h
    rw [if_neg (by simp [h])]
  · intro h
    rw [if_neg (by simp [h])]
  · intro h1 h2
    rw [if_pos (by simp [h1, h2])]

theorem c8_witness : count_by_file_id [rowLegacy] "alice" "docs/report.pdf" = 1 := by
  have h := (c8_count_by_file_id [rowLegacy] "alice" "docs/report.pdf").2.2
    (by decide) (by decide)
  rw [h]
  decide

/-- Claim C9: the sequential pool lifecycle — the first `get_pool`
initializes and returns a pool; a subsequent call returns the same pool
and state; `close_pool` is idempotent, a no-op on an uninitialized
state, and resets the state to uninitialized, after which `get_pool`
builds a fresh pool distinct from the closed one. -/
theorem c9_pool_lifecycle (s : PoolState) :
    (s.pool = none → (get_pool s).2.pool = some (get_pool s).1)
    ∧ (get_pool (get_pool s).2 = ((get_pool s).1, (get_pool s).2))
    ∧ (close_pool (close_pool s) = close_pool s)
    ∧ ((close_pool s).pool = none)
    ∧ (s.pool = none → close_pool s = s)
    ∧ ((∀ p, s.pool = some p → p < s.next) →
        ∀ p, s.pool = some p →
          (get_pool (close_pool s)).1 ≠ p
          ∧ (get_pool (close_pool s)).2.pool = some ((get_pool (close_pool s)).1)) := by
  obtain ⟨pl, nx⟩ := s
  cases pl with
  | none =>
    refine ⟨fun _ => rfl, rfl, rfl, rfl, fun _ => rfl, ?_⟩
    intro _ p hp
    exact Option.noConfusion hp
  | some p0 =>
    refine ⟨?_, rfl, rfl, rfl, ?_, ?_⟩
    · intro h
      exact Option.noConfusion h
    · intro h
      exact Option.noConfusion h
    · intro hwf p hp
      have hpp : p0 = p := by
        injection hp
      have hlt : p0 < nx := hwf p0 rfl
      refine ⟨?_, rfl⟩
      show nx ≠ p
      omega

theorem c9_witness :
    close_pool { pool := none, next := 0 } = { pool := none, next := 0 } :=
  (c9_pool_lifecycle { pool := none, next := 0 }).2.2.2.2.1 rfl

theorem chosenChunkId_none (fresh : String) : chosenChunkId none fresh = fresh := rfl

theorem chosenChunkId_some (s fresh : String) :
    chosenChunkId (some s) fresh = if s = "" then fresh else s := rfl

/-- Claim C10: a document whose metadata chunk_id is absent or empty
(falsy) gets a freshly generated identifier; every prepared row — and
hence every row written by `upsert_documents` — has a non-empty
chunk_id; and two falsy-id documents at different positions get distinct
generated chunk_ids (so an empty caller-supplied id never collides via
the on-conflict clause). -/
theorem c10_generated_identity (docs : List Doc) (cis : Option (List Int))
    (gen : Nat → String) (embedF : String → List Rat) (ns : String) (s : DbState)
    (copy : Bool) (hgen : ∀ i, gen i ≠ "") :
    (∀ i d, docs[i]? = some d →
      (d.metadata.chunk_id = none ∨ d.metadata.chunk_id = some "") →
      ∃ r, (prepareData docs cis gen embedF ns)[i]? = some r ∧ r.chunk_id = gen i)
    ∧ (∀ r ∈ prepareData docs cis gen embedF ns, r.chunk_id ≠ "")
    ∧ ((∀ r ∈ s.embeddings, r.chunk_id ≠ "") →
        ∀ r ∈ (upsert_documents docs cis copy gen embedF ns s).embeddings,
          r.chunk_id ≠ "")
    ∧ ((∀ i j, gen i = gen j → i = j) →
        ∀ (i j : Nat) (di dj : Doc), i ≠ j → docs[i]? = some di → docs[j]? = some dj →
        (di.metadata.chunk_id = none ∨ di.metadata.chunk_id = some "") →
        (dj.metadata.chunk_id = none ∨ dj.metadata.chunk_id = some "") →
        ∃ ri rj, (prepareData docs cis gen embedF ns)[i]? = some ri
          ∧ (prepareData docs cis gen embedF ns)[j]? = some rj
          ∧ ri.chunk_id ≠ rj.chunk_id) := by
  have ha : ∀ i d, docs[i]? = some d →
      (d.metadata.chunk_id = none ∨ d.metadata.chunk_id = some "") →
      ∃ r, (prepareData docs cis gen embedF ns)[i]? = some r ∧ r.chunk_id = gen i := by
    intro i d hd hfalsy
    have hidx : (idxFrom 0 docs)[i]? = some (i, d) := by
      rw [idxFrom_getElem?, hd]
      simp
    unfold prepareData
    rw [List.getElem?_map, hidx]
    refine ⟨_, rfl, ?_⟩
    show chosenChunkId d.metadata.chunk_id (gen i) = gen i
    rcases hfalsy with hm | hm
    · rw [hm, chosenChunkId_none]
    · rw [hm, chosenChunkId_some, if_pos rfl]
  have hb : ∀ r ∈ prepareData docs cis gen embedF ns, r.chunk_id ≠ "" := by
    intro r hr
    unfold prepareData at hr
    rcases List.mem_map.1 hr with ⟨p, _, hpr⟩
    rw [← hpr]
    show chosenChunkId p.2.metadata.chunk_id (gen p.1) ≠ ""
    cases hm : p.2.metadata.chunk_id with
    | none =>
      rw [chosenChunkId_none]
      exact hgen p.1
    | some str =>
      rw [chosenChunkId_some]
      by_cases hs : str = ""
      · rw [if_pos hs]
        exact hgen p.1
      · rw [if_neg hs]
        exact hs
  refine ⟨ha, hb, ?_, ?_⟩
  · intro hpre r hr
    unfold upsert_documents at hr
    by_cases hd : docs.isEmpty
    · rw [if_pos hd] at hr
      exact hpre r hr
    · rw [if_neg hd] at hr
      have hstamped : ∀ x ∈ (prepareData docs cis gen embedF ns).map (stampNs ns),
          x.chunk_id ≠ "" := by
        intro x hx
        rcases List.mem_map.1 hx with ⟨r0, hr0, hxr⟩
        rw [← hxr, stampNs_chunk_id]
        exact hb r0 hr0
      by_cases hc : copyCondition ns copy = true
      · rw [utp_embeddings_copy _ _ hc] at hr
        rcases mem_upsertBatch hr with hr | hr
        · rcases mem_upsertBatch hr with hr | hr
          · exact hpre r hr
          · exact hstamped r hr
        · rcases List.mem_map.1 hr with ⟨r1, hr1, hrr⟩
          rw [← hrr, stampNs_chunk_id]
          exact hstamped r1 hr1
      · have hcf : copyCondition ns copy = false := by
          cases h : copyCondition ns copy
          · rfl
          · exact absurd h hc
        rw [utp_embeddings_nocopy _ _ hcf] at hr
        rcases mem_upsertBatch hr with hr | hr
        · exact hpre r hr
        · exact hstamped r hr
  · intro hinj i j di dj hij hdi hdj hfi hfj
    rcases ha i di hdi hfi with ⟨ri, hri, hric⟩
    rcases ha j dj hdj hfj with ⟨rj, hrj, hrjc⟩
    refine ⟨ri, rj, hri, hrj, ?_⟩
    rw [hric, hrjc]
    exact fun he => hij (hinj i j he)

theorem c10_witness :
    ((prepareData [docU] none (fun _ => "uuid0") (fun _ => ([] : List Rat))
      "alice")[0]?.map (fun r => r.chunk_id)) = some "uuid0" := by
  rcases (c10_generated_identity [docU] none (fun _ => "uuid0")
      (fun _ => ([] : List Rat)) "alice" emptyState false (fun i => by show ("uuid0" : String) ≠ ""; decide)).1
      0 docU rfl (Or.inl rfl) with ⟨r, hr, hrc⟩
  rw [hr, Option.map_some', hrc]
